import Mathlib

/-! # Backport dashboard: retrying transport, clone-chain resolver, sync orchestrator

A shallow embedding of `main.go`.  Go strings are Lean `String`s, Go `int`
and `time.Duration` are mathematical integers wrapped into the 64-bit signed
range where the source does arithmetic on them, and the external collaborators
(the underlying HTTP transport, the issue tracker and the document store) are
explicit environments whose answers the code consumes.
-/

namespace BackportDashboard

/-! ## Machine integers and durations -/

/-- Wrap of an integer into the range of the Go type `int64`, as two-complement arithmetic does. -/
def wrapInt64 (x : Int) : Int := (x + 2 ^ 63) % 2 ^ 64 - 2 ^ 63

/-- The integer is representable as a Go `int64`. -/
def isInt64 (x : Int) : Prop := -2 ^ 63 ≤ x ∧ x < 2 ^ 63

instance (x : Int) : Decidable (isInt64 x) := by
  unfold isInt64
  exact inferInstance

/-- The constant `time.Second`, in nanoseconds. -/
def Second : Int := 1000000000

/-! ## `strconv.Atoi` (64-bit `int`) -/

namespace strconv

/-- Value of a decimal digit, `none` for any other character. -/
def digitVal (c : Char) : Option Nat :=
  if '0'.toNat ≤ c.toNat ∧ c.toNat ≤ '9'.toNat then some (c.toNat - '0'.toNat) else none

/-- Decimal value of a run of digits, `none` as soon as a non-digit is met. -/
def parseDigits : List Char → Nat → Option Nat
  | [], acc => some acc
  | c :: cs, acc =>
    match digitVal c with
    | some d => parseDigits cs (acc * 10 + d)
    | none => none

/-- The Go function `strconv.Atoi` with a 64-bit `int`: an optional sign followed by at
least one decimal digit, the value inside the `int64` range; `none` stands for
a non-nil parse error (syntax or range). -/
def Atoi (s : String) : Option Int :=
  match s.data with
  | [] => none
  | c :: cs =>
    let digits := if c = '-' ∨ c = '+' then cs else c :: cs
    match digits with
    | [] => none
    | d :: ds =>
      match parseDigits (d :: ds) 0 with
      | none => none
      | some n =>
        let v : Int := if c = '-' then -(n : Int) else (n : Int)
        if isInt64 v then some v else none

end strconv

/-! ## Retrying transport -/

/-- The part of an `http.Response` the transport looks at, plus a payload
standing for everything else and a flag recording `Body.Close()`. -/
structure Response where
  StatusCode : Int
  Header : List (String × String)
  payload : String
  bodyClosed : Bool
  deriving DecidableEq, Repr

/-- The method `Header.Get`: first value stored under the key, or the empty
string; keys are kept in canonical form. -/
def Response.HeaderGet (resp : Response) (key : String) : String :=
  match resp.Header.find? (fun kv => kv.1 = key) with
  | some kv => kv.2
  | none => ""

/-- The struct `backoffTransport`; the wrapped `transport` lives in `Net`. -/
structure backoffTransport where
  maxRetries : Int
  initialBackoff : Int
  deriving DecidableEq, Repr

/-- What the outside world answers during one `RoundTrip` call: the outcome of
the `i`-th call of the underlying transport and whether the request context is
done before the timer of the `i`-th wait fires. -/
structure Net where
  transport : Nat → Except String Response
  ctxDone : Nat → Bool
  ctxErr : String

/-- Result of `RoundTrip` together with what it did: the number of calls of
the underlying transport and the durations handed to `time.After`, in order. -/
structure RoundTripResult where
  resp : Option Response
  err : Option String
  attempts : Nat
  timers : List Int
  deriving DecidableEq, Repr

/-- Lines 110-115: the parsed `Retry-After` header, `0` when the header is
empty or `strconv.Atoi` rejects it. -/
def retryAfterOf (resp : Response) : Int :=
  let retryAfterStr := resp.HeaderGet "Retry-After"
  if retryAfterStr ≠ "" then
    match strconv.Atoi retryAfterStr with
    | some retryAfterSec => retryAfterSec
    | none => 0
  else 0

/-- Lines 121-127: the wait and the next value of `backoff`. -/
def sleepDurationOf (retryAfter backoff : Int) : Int × Int :=
  if retryAfter > 0 then
    (wrapInt64 (retryAfter * Second), backoff)
  else
    (backoff, wrapInt64 (backoff * 2))

/-- The `for` loop of `RoundTrip`, entered at its condition with the current
`retries`, `backoff` and last `resp`. -/
def RoundTrip.loop (t : backoffTransport) (net : Net) (retries : Int) (backoff : Int)
    (resp : Option Response) (attempts : Nat) (timers : List Int) : RoundTripResult :=
  if retries ≤ t.maxRetries then
    match net.transport attempts with
    | .error e => ⟨none, some e, attempts + 1, timers⟩
    | .ok resp =>
      if resp.StatusCode ≠ 429 ∨ retries = t.maxRetries then
        ⟨some resp, none, attempts + 1, timers⟩
      else
        let retryAfter := retryAfterOf resp
        let resp := { resp with bodyClosed := true }
        let (sleepDuration, backoff) := sleepDurationOf retryAfter backoff
        if net.ctxDone attempts then
          ⟨none, some net.ctxErr, attempts + 1, timers ++ [sleepDuration]⟩
        else
          RoundTrip.loop t net (retries + 1) backoff (some resp) (attempts + 1)
            (timers ++ [sleepDuration])
  else
    ⟨resp, none, attempts, timers⟩
termination_by (t.maxRetries + 1 - retries).toNat
decreasing_by
  simp_wf
  omega

/-- The method `backoffTransport.RoundTrip`. -/
def RoundTrip (t : backoffTransport) (net : Net) : RoundTripResult :=
  RoundTrip.loop t net 0 t.initialBackoff none 0 []

/-- The transport built by `createJiraClientWithBackoff`. -/
def configuredTransport : backoffTransport :=
  { maxRetries := 5, initialBackoff := 1 * Second }

/-! ## The Go string helpers used by the resolver -/

namespace strings

/-- The Go function `strings.TrimPrefix`. -/
def TrimPrefix (s pre : String) : String :=
  if pre.data.isPrefixOf s.data then ⟨s.data.drop pre.data.length⟩ else s

/-- The Go function `strings.TrimSuffix`. -/
def TrimSuffix (s suf : String) : String :=
  if suf.data.isSuffixOf s.data then ⟨s.data.take (s.data.length - suf.data.length)⟩ else s

/-- Substring test on character lists: some suffix of `s` starts with `sub`. -/
def containsL (sub : List Char) : List Char → Bool
  | [] => sub.isPrefixOf []
  | c :: cs => sub.isPrefixOf (c :: cs) || containsL sub cs

/-- The Go function `strings.Contains`. -/
def Contains (s substr : String) : Bool := containsL substr.data s.data

/-- Left-to-right scan for non-overlapping occurrences of a non-empty `sep`:
`skip` counts the characters of a matched separator still to be dropped and
`cur` holds the current piece, reversed. -/
def splitL (sep : List Char) : List Char → Nat → List Char → List (List Char)
  | [], _, cur => [cur.reverse]
  | _ :: cs, skip + 1, cur => splitL sep cs skip cur
  | c :: cs, 0, cur =>
    if sep.isPrefixOf (c :: cs) then cur.reverse :: splitL sep cs (sep.length - 1) []
    else splitL sep cs 0 (c :: cur)

/-- The Go function `strings.Split`: the pieces between successive non-overlapping
occurrences of `sep`; an empty `sep` splits after every character. -/
def Split (s sep : String) : List String :=
  if sep.data = [] then s.data.map (fun c => ⟨[c]⟩)
  else (splitL sep.data s.data 0 []).map (fun p => ⟨p⟩)

/-- The Go function `unicode.IsSpace`. -/
def isSpace (c : Char) : Bool :=
  let n := c.toNat
  (9 ≤ n && n ≤ 13) || n = 32 || n = 0x85 || n = 0xA0 || n = 0x1680 ||
  (0x2000 ≤ n && n ≤ 0x200A) || n = 0x2028 || n = 0x2029 || n = 0x202F || n = 0x205F ||
  n = 0x3000

/-- The Go function `strings.TrimSpace`. -/
def TrimSpace (s : String) : String :=
  ⟨((s.data.dropWhile isSpace).reverse.dropWhile isSpace).reverse⟩

/-- Character-list form of `strings.Join`. -/
def joinL (sep : List Char) : List (List Char) → List Char
  | [] => []
  | [a] => a
  | a :: b :: rest => a ++ sep ++ joinL sep (b :: rest)

/-- The Go function `strings.Join`. -/
def Join (elems : List String) (sep : String) : String :=
  ⟨joinL sep.data (elems.map (fun e => e.data))⟩

end strings

/-- The Go comparison `>` on strings: bytewise lexicographic order, which on UTF-8 text
is the lexicographic order of the code points. -/
def stringGreater (a b : String) : Bool := decide (b.data < a.data)

/-- Insertion of one string into a list sorted in descending order. -/
def insertDesc (a : String) : List String → List String
  | [] => [a]
  | b :: rest => if stringGreater b a then b :: insertDesc a rest else a :: b :: rest

/-- The call `sort.Slice(values, func(i, j) { return values[i] > values[j] })`:
the comparison is a strict total order on strings, so every sorting algorithm
yields the same descending list. -/
def sortSliceDesc : List String → List String
  | [] => []
  | a :: rest => insertDesc a (sortSliceDesc rest)

/-! ## Values decoded from the JSON of the tracker and `fmt.Sprintf("%v", ...)` -/

/-- An `interface{}` as `encoding/json` decodes it.  A number carries the text
that `%v` prints for it. -/
inductive JValue where
  | null : JValue
  | bool : Bool → JValue
  | num : String → JValue
  | str : String → JValue
  | arr : List JValue → JValue
  | obj : List (String × JValue) → JValue

/-- Insertion of a rendered map entry into a list sorted by ascending key. -/
def insertByKey (kv : String × String) : List (String × String) → List (String × String)
  | [] => [kv]
  | kv' :: rest =>
    if stringGreater kv.1 kv'.1 then kv' :: insertByKey kv rest else kv :: kv' :: rest

/-- Map entries in the key order in which `fmt` prints them. -/
def sortByKey : List (String × String) → List (String × String)
  | [] => []
  | kv :: rest => insertByKey kv (sortByKey rest)

mutual
/-- The text `fmt.Sprintf("%v", v)`. -/
def JValue.sprintV : JValue → String
  | .null => "<nil>"
  | .bool b => if b then "true" else "false"
  | .num text => text
  | .str s => s
  | .arr xs => "[" ++ strings.Join (sprintVList xs) " " ++ "]"
  | .obj fields =>
    "map[" ++ strings.Join ((sortByKey (sprintVFields fields)).map
      (fun kv => kv.1 ++ ":" ++ kv.2)) " " ++ "]"
/-- The `%v` texts of the elements of a slice. -/
def sprintVList : List JValue → List String
  | [] => []
  | x :: xs => x.sprintV :: sprintVList xs
/-- The keys of a map with the `%v` texts of their values. -/
def sprintVFields : List (String × JValue) → List (String × String)
  | [] => []
  | (k, v) :: rest => (k, v.sprintV) :: sprintVFields rest
end

/-! ## Issues as the tracker client returns them -/

/-- The struct `jira.Status`, reduced to the field read. -/
structure Status where
  Name : String

/-- The struct `jira.User`, reduced to the field read. -/
structure User where
  DisplayName : String

/-- The struct `jira.IssueFields`, reduced to the fields read; `Unknowns` is
`none` for a nil map. -/
structure IssueFields where
  Status : Option Status
  Assignee : Option User
  Summary : String
  Unknowns : Option (List (String × JValue))

/-- The struct `jira.Issue`; `Fields` is taken to be non-nil. -/
structure Issue where
  Key : String
  Fields : IssueFields

/-- Indexing a Go map of `interface{}`: the nil interface when the key is missing. -/
def unknownsGet (m : List (String × JValue)) (key : String) : JValue :=
  match m.find? (fun kv => kv.1 = key) with
  | some kv => kv.2
  | none => .null

/-- The inner loop of `getCustomFieldValue` (lines 173-179). -/
def scanKvs (values : List String) (kvs : List String) : List String :=
  kvs.foldl (fun values kv =>
    if strings.Contains kv "name" then
      let kv := strings.TrimPrefix kv "name:"
      let kv := strings.TrimSpace kv
      values ++ [kv]
    else values) values

/-- The outer loop of `getCustomFieldValue` (lines 170-180). -/
def scanMaps (values : List String) (maps : List String) : List String :=
  maps.foldl (fun values m =>
    let m := strings.TrimSuffix m "]"
    let kvs := strings.Split m " "
    scanKvs values kvs) values

/-- The function `getCustomFieldValue`. -/
def getCustomFieldValue (issue : Issue) (customFieldID : String) : String :=
  match issue.Fields.Unknowns with
  | some unknowns =>
    let values : List String := []
    let fieldData := (unknownsGet unknowns customFieldID).sprintV
    let fieldData := strings.TrimPrefix fieldData "["
    let fieldData := strings.TrimSuffix fieldData "]"
    let maps := strings.Split fieldData "map["
    let values := scanMaps values maps
    strings.Join (sortSliceDesc values) ", "
  | none => ""

/-! ## Documents -/

/-- The values the sync path and the update interface put into a `bson.M`:
strings, booleans and nested `bson.M`s, where `nilM` is the nil map. -/
inductive Value where
  | str : String → Value
  | bool : Bool → Value
  | nilM : Value
  | doc : List (String × Value) → Value

/-- The type `bson.M`, as the list of its entries (keys pairwise distinct). -/
abbrev M := List (String × Value)

/-- Map lookup `m[key]`. -/
def M.get : M → String → Option Value
  | [], _ => none
  | (k, v) :: rest, key => if k = key then some v else M.get rest key

/-- Map assignment `m[key] = v`. -/
def M.set : M → String → Value → M
  | [], key, v => [(key, v)]
  | (k, w) :: rest, key, v => if k = key then (k, v) :: rest else (k, w) :: M.set rest key v

/-- A returned `bson.M` stored as an `interface{}`: a nil map stays a (typed) nil. -/
def Value.ofM : Option M → Value
  | none => .nilM
  | some m => .doc m

/-! ## Clone-chain resolver -/

/-- The struct `jira.SearchOptions`, reduced to the fields set. -/
structure SearchOptions where
  StartAt : Nat
  MaxResults : Nat
  Fields : List String
  deriving DecidableEq

/-- The issue tracker as the resolver and the orchestrator reach it:
`IssueGet issueID fields` is `jiraClient.Issue.Get`, `IssueSearch jql options`
is `jiraClient.Issue.Search`, giving the keys of the issues found, in order. -/
structure Jira where
  IssueGet : String → String → Except String Issue
  IssueSearch : String → SearchOptions → Except String (List String)

/-- The constant `maxRecursionDepth`. -/
def maxRecursionDepth : Nat := 6

/-- The query built at line 227. -/
def cloneJql (key : String) : String :=
  "issue in linkedIssues(\"" ++ key ++ "\", \"is cloned by\") ORDER BY created DESC"

/-- The search options built at lines 229-232. -/
def cloneSearchOptions : SearchOptions :=
  { StartAt := 0, MaxResults := 1, Fields := ["status"] }

/-- The field filter chosen at lines 195-198. -/
def fieldFilter (depth : Nat) : String :=
  if depth > 0 then "status,customfield_12319940"
  else "summary,status,assignee,customfield_12319940,customfield_12323940"

/-- Lines 207-221: the snapshot before the clone lookup. -/
def snapshotOf (issue : Issue) (depth : Nat) : M :=
  let data : M := [("_id", .str issue.Key)]
  let data := match issue.Fields.Status with
    | some status => data.set "status" (.str status.Name)
    | none => data
  let data := data.set "target_version" (.str (getCustomFieldValue issue "customfield_12319940"))
  if depth = 0 then
    let data := match issue.Fields.Assignee with
      | some assignee => data.set "assignee" (.str assignee.DisplayName)
      | none => data
    let data := data.set "summary" (.str issue.Fields.Summary)
    data.set "target_backport_versions"
      (.str (getCustomFieldValue issue "customfield_12323940"))
  else data

/-- The function `storeIssue`; `.ok none` is the pair `nil, nil`. -/
def storeIssue (jira : Jira) (issueID : String) (depth : Nat) : Except String (Option M) :=
  if depth > maxRecursionDepth then .ok none
  else
    match jira.IssueGet issueID (fieldFilter depth) with
    | .error err => .error ("error getting issue " ++ issueID ++ ": " ++ err)
    | .ok issue =>
      let data := snapshotOf issue depth
      match jira.IssueSearch (cloneJql issue.Key) cloneSearchOptions with
      | .error err => .error ("error searching for cloned issues: " ++ err)
      | .ok clones =>
        match clones with
        | clone :: _ =>
          match storeIssue jira clone (depth + 1) with
          | .error err => .error ("error storing cloned issue " ++ clone ++ ": " ++ err)
          | .ok sub => .ok (some (data.set "clone" (Value.ofM sub)))
        | [] => .ok (some data)
termination_by maxRecursionDepth + 1 - depth
decreasing_by
  simp_wf
  omega

mutual
/-- Number of nested snapshots reached by following `clone` from a value. -/
def Value.cloneLevels : Value → Nat
  | .doc m => 1 + cloneLevelsM m
  | _ => 0
/-- Number of snapshots nested under the `clone` key of a snapshot. -/
def cloneLevelsM : List (String × Value) → Nat
  | [] => 0
  | (k, v) :: rest => if k = "clone" then v.cloneLevels else cloneLevelsM rest
end

/-! ## Document store -/

/-- The value is the string `key`. -/
def Value.isStr (key : String) : Value → Bool
  | .str k => k = key
  | _ => false

/-- The `_id` of the document is the string `key`. -/
def hasId (key : String) (d : M) : Bool :=
  match d.get "_id" with
  | some v => v.isStr key
  | none => false

/-- A collection: its documents, with pairwise distinct `_id`s. -/
abbrev Collection := List M

/-- The query `FindOne({_id: key})`. -/
def Collection.findById (c : Collection) (key : String) : Option M :=
  c.find? (hasId key)

/-- The update operator `$set`: every entry of `data` is assigned in the document. -/
def applySet (d : M) (data : M) : M :=
  data.foldl (fun d kv => d.set kv.1 kv.2) d

/-- A `$set` document leaves the `_id` of the document with this key alone:
an `_id` entry it carries holds the string `key`. -/
def keepsId (key : String) (data : M) : Bool :=
  data.all (fun kv => kv.1 ≠ "_id" || kv.2.isStr key)

/-- The first document matching the filter is replaced by its `$set` image. -/
def updateFirst (key : String) (data : M) : Collection → Option Collection
  | [] => none
  | d :: rest =>
    if hasId key d then some (applySet d data :: rest)
    else (updateFirst key data rest).map (fun rest' => d :: rest')

/-- What can make a store call fail outside the data: the error, if any, that
the driver returns for an `UpdateOne` with this key and `$set` document and for
a `DeleteMany` with this `$nin` list. -/
structure Mongo where
  updateOneErr : String → M → Option String
  deleteManyErr : List String → Option String

/-- The call `UpdateOne({_id: key}, {$set: data})` with upsert: the matching
document gets the fields of `data` merged in, a missing one is inserted as
`{_id: key}` merged with `data`; changing `_id` is refused by the store. -/
def Collection.UpdateOne (mongo : Mongo) (c : Collection) (key : String) (data : M) :
    Except String Collection :=
  match mongo.updateOneErr key data with
  | some err => .error err
  | none =>
    if keepsId key data then
      match updateFirst key data c with
      | some c' => .ok c'
      | none => .ok (c ++ [applySet [("_id", .str key)] data])
    else .error "the immutable field _id would be altered"

/-- The filter `{_id: {$nin: keys}}` matches the document. -/
def ninMatches (keys : List String) (d : M) : Bool :=
  match d.get "_id" with
  | some (.str k) => !(keys.contains k)
  | _ => true

/-- The call `DeleteMany({_id: {$nin: keys}})`: the remaining collection and
the number of documents deleted. -/
def Collection.DeleteMany (mongo : Mongo) (c : Collection) (keys : List String) :
    Except String (Collection × Nat) :=
  match mongo.deleteManyErr keys with
  | some err => .error err
  | none => .ok (c.filter (fun d => !(ninMatches keys d)), (c.filter (ninMatches keys)).length)

/-! ## Sync orchestrator -/

/-- The function `getMapKeys`, the map being the list of its entries. -/
def getMapKeys (m : List (String × Bool)) : List String :=
  m.foldl (fun keys kv => keys ++ [kv.1]) []

/-- Map assignment `m[key] = true` on a `map[string]bool`. -/
def markUpdated : List (String × Bool) → String → List (String × Bool)
  | [], key => [(key, true)]
  | (k, b) :: rest, key => if k = key then (k, true) :: rest else (k, b) :: markUpdated rest key

/-- The lines `syncIssues` writes to the log. -/
inductive LogLine where
  | errorStoring : String → String → LogLine
  | errorUpserting : String → String → LogLine
  | upserted : String → LogLine
  | removed : Nat → LogLine
  deriving DecidableEq

/-- The key a per-issue log line is about. -/
def LogLine.key? : LogLine → Option String
  | .errorStoring k _ => some k
  | .errorUpserting k _ => some k
  | .upserted k => some k
  | .removed _ => none

/-- What `syncIssues` has changed so far: the collection, the map
`updatedDocuments` and the log. -/
structure SyncState where
  collection : Collection
  updatedDocuments : List (String × Bool)
  log : List LogLine

/-- The tracking query of line 264. -/
def trackingJql : String :=
  "project = OCPBUGS AND component = Hypershift AND \"Target Version\" = 4.19.0 AND \"Target Backport Versions\" is not EMPTY"

/-- The body of the inner loop (lines 281-301) for the issue with this key.
At depth 0 `storeIssue` never returns the nil map, which `getD` covers. -/
def processIssue (jira : Jira) (mongo : Mongo) (st : SyncState) (key : String) : SyncState :=
  match storeIssue jira key 0 with
  | .error err => { st with log := st.log ++ [.errorStoring key err] }
  | .ok data =>
    match st.collection.UpdateOne mongo key (data.getD []) with
    | .error err => { st with log := st.log ++ [.errorUpserting key err] }
    | .ok c =>
      { collection := c,
        updatedDocuments := markUpdated st.updatedDocuments key,
        log := st.log ++ [.upserted key] }

/-- The pagination loop (lines 273-309), entered with the current `StartAt`;
`none` when the `fuel` bound on the number of pages is used up.  The state is
returned with the error, writes already made being kept by the store. -/
def syncPages (jira : Jira) (mongo : Mongo) :
    Nat → Nat → SyncState → Option (Option String × SyncState)
  | 0, _, _ => none
  | fuel + 1, startAt, st =>
    match jira.IssueSearch trackingJql { StartAt := startAt, MaxResults := 50, Fields := ["status"] } with
    | .error err => some (some ("error searching Jira issues: " ++ err), st)
    | .ok issues =>
      let st := issues.foldl (processIssue jira mongo) st
      if issues.length < 50 then some (none, st)
      else syncPages jira mongo fuel (startAt + issues.length) st

/-- The function `syncIssues` run on a collection: the returned error (`none`
for nil) and the final state; the outer `none` when `fuel` pages do not reach
the end of the pagination. -/
def syncIssues (jira : Jira) (mongo : Mongo) (fuel : Nat) (collection : Collection) :
    Option (Option String × SyncState) :=
  match syncPages jira mongo fuel 0 { collection := collection, updatedDocuments := [], log := [] } with
  | none => none
  | some (some err, st) => some (some err, st)
  | some (none, st) =>
    match st.collection.DeleteMany mongo (getMapKeys st.updatedDocuments) with
    | .error err => some (some ("error removing stale documents: " ++ err), st)
    | .ok (c, n) => some (none, { st with collection := c, log := st.log ++ [.removed n] })

/-! ## Vocabulary of the statements -/

/-- The response's `Retry-After` header does not parse to a positive integer:
absent, rejected by `strconv.Atoi`, zero or negative. -/
def noPositiveRetryAfter (resp : Response) : Prop :=
  ∀ n : Int, strconv.Atoi (resp.HeaderGet "Retry-After") = some n → n ≤ 0

/-- Issue `K i` is fetched and its newest "is cloned by" result is `K (i+1)`. -/
def ClonesLinked (jira : Jira) (K : Nat → String) (i : Nat) : Prop :=
  ∃ issue, jira.IssueGet (K i) (fieldFilter i) = .ok issue ∧
    ∃ rest, jira.IssueSearch (cloneJql issue.Key) cloneSearchOptions = .ok (K (i + 1) :: rest)

/-- Issue `K i` is fetched and its "is cloned by" search finds nothing. -/
def ChainEnds (jira : Jira) (K : Nat → String) (i : Nat) : Prop :=
  ∃ issue, jira.IssueGet (K i) (fieldFilter i) = .ok issue ∧
    jira.IssueSearch (cloneJql issue.Key) cloneSearchOptions = .ok []

/-- A clone chain `K 0 -> K 1 -> ...` headed by `K 0`: of `N` links when the
length is `some N`, never ending (as on a cycle) when it is `none`. -/
def CloneChain (jira : Jira) (K : Nat → String) : Option Nat → Prop
  | some N => (∀ i, i < N → ClonesLinked jira K i) ∧ ChainEnds jira K N
  | none => ∀ i, ClonesLinked jira K i

/-- The nesting the claim expects for a chain of the given length. -/
def expectedLevels : Option Nat → Nat
  | some N => min N maxRecursionDepth
  | none => maxRecursionDepth

/-- Some document of the collection has the string `key` as `_id`. -/
def HasKey (c : Collection) (key : String) : Prop := ∃ d, d ∈ c ∧ hasId key d = true

/-- The options of the tracking search at the given offset (lines 267-271). -/
def trackingOptions (startAt : Nat) : SearchOptions :=
  { StartAt := startAt, MaxResults := 50, Fields := ["status"] }

/-- The keys matched by the tracking query during a run: the pages the
pagination loop fetches from `startAt` on, concatenated. -/
def matchedKeys (jira : Jira) : Nat → Nat → List String
  | 0, _ => []
  | fuel + 1, startAt =>
    match jira.IssueSearch trackingJql (trackingOptions startAt) with
    | .error _ => []
    | .ok issues =>
      issues ++ (if issues.length < 50 then [] else matchedKeys jira fuel (startAt + issues.length))

/-- Offset of the `i`-th page the pagination loop asks for. -/
def pageStart (jira : Jira) : Nat → Nat
  | 0 => 0
  | i + 1 =>
    pageStart jira i +
      (match jira.IssueSearch trackingJql (trackingOptions (pageStart jira i)) with
       | .ok issues => issues.length
       | .error _ => 0)

/-- The pagination searches succeed and page `p` is the first short one. -/
def PaginationEnds (jira : Jira) (p : Nat) : Prop :=
  (∀ i, i < p → ∃ issues,
    jira.IssueSearch trackingJql (trackingOptions (pageStart jira i)) = .ok issues ∧
      50 ≤ issues.length) ∧
  ∃ issues, jira.IssueSearch trackingJql (trackingOptions (pageStart jira p)) = .ok issues ∧
    issues.length < 50

/-- Resolution of the issue succeeds and the store accepts its upsert. -/
def resolvedAndUpserted (jira : Jira) (mongo : Mongo) (key : String) : Prop :=
  ∃ data, storeIssue jira key 0 = .ok (some data) ∧
    mongo.updateOneErr key data = none ∧ keepsId key data = true

/-- The keys recorded in `updatedDocuments`. -/
def touchedKeys (st : SyncState) : List String := getMapKeys st.updatedDocuments

/-- What holds of the state after the issues `seen` have been processed,
starting from the collection `c0` with nothing recorded. -/
structure SyncInv (jira : Jira) (mongo : Mongo) (c0 : Collection) (seen : List String)
    (st : SyncState) : Prop where
  keys : ∀ k, HasKey st.collection k ↔ HasKey c0 k ∨ k ∈ touchedKeys st
  touched : ∀ k, k ∈ touchedKeys st ↔ k ∈ seen ∧ resolvedAndUpserted jira mongo k
  logKeys : st.log.filterMap LogLine.key? = seen
  upserted : ∀ k, LogLine.upserted k ∈ st.log ↔ k ∈ touchedKeys st

/-- The top-level fields a snapshot built by `storeIssue` can carry. -/
def syncFields : List String :=
  ["_id", "status", "target_version", "assignee", "summary", "target_backport_versions", "clone"]

/-- The separator `map[` as a character list. -/
def mapSep : List Char := ['m', 'a', 'p', '[']

/-- The value the inner loop appends for one token, if any. -/
def kvValue (kv : String) : Option String :=
  if strings.Contains kv "name" then
    some (strings.TrimSpace (strings.TrimPrefix kv "name:"))
  else none

/-- The values the inner loop appends for the tokens of the text `m`. -/
def namesIn (m : String) : List String :=
  (strings.Split m " ").filterMap kvValue

/-- A name-bearing entry of the custom field: an object whose fields, in the
key order in which `fmt` prints them, are `pre`, then `name`, then `post`. -/
structure NameEntry where
  pre : List (String × JValue)
  name : String
  post : List (String × JValue)

/-- The fields of the entry, in key order. -/
def NameEntry.fields (e : NameEntry) : List (String × JValue) :=
  e.pre ++ [("name", .str e.name)] ++ e.post

/-- The entry as a decoded JSON object. -/
def NameEntry.toJValue (e : NameEntry) : JValue := .obj e.fields

/-- How `%v` prints one field of an object. -/
def fieldText (f : String × JValue) : String := f.1 ++ ":" ++ f.2.sprintV

/-- The entries that the text scraping reads back exactly: the fields are
listed in strictly ascending key order, `name` is not the last of them, the
name has no white space and no `[`, and the printed text of every other field
has no `[` and does not contain `name`. -/
structure NameEntry.Scrapable (e : NameEntry) : Prop where
  keyOrder : List.Chain' (fun a b => a.1 < b.1) e.fields
  notLast : e.post ≠ []
  nameClean : ∀ c, c ∈ e.name.data → strings.isSpace c = false ∧ c ≠ '['
  othersClean : ∀ f, f ∈ e.pre ++ e.post →
    '[' ∉ (fieldText f).data ∧ strings.Contains (fieldText f) "name" = false

/-- The text between `map[` and `]` in the printed entry. -/
def NameEntry.body (e : NameEntry) : String :=
  strings.Join (e.fields.map fieldText) " "

/-- How `%v` prints the entry. -/
def NameEntry.text (e : NameEntry) : String := "map[" ++ e.body ++ "]"

/-- The pieces that splitting at `map[` leaves of the printed entries, after
the empty first piece. -/
def piecesOf : List NameEntry → List String
  | [] => []
  | [e] => [e.body ++ "]"]
  | e :: e' :: rest => (e.body ++ "] ") :: piecesOf (e' :: rest)

/-- The custom field of the issue holds the list of these entries; an absent
field (nil `Unknowns`, missing key or JSON null) counts as the empty list. -/
def fieldHolds (issue : Issue) (customFieldID : String) (es : List NameEntry) : Prop :=
  (∃ unknowns, issue.Fields.Unknowns = some unknowns ∧
    unknownsGet unknowns customFieldID = .arr (es.map NameEntry.toJValue)) ∨
  (es = [] ∧ (issue.Fields.Unknowns = none ∨
    ∃ unknowns, issue.Fields.Unknowns = some unknowns ∧
      unknownsGet unknowns customFieldID = .null))

/-! ## Concrete inputs -/

/-- A rate-limited response carrying the given `Retry-After` value. -/
def rateLimited (retryAfter : String) : Response :=
  { StatusCode := 429, Header := [("Retry-After", retryAfter)], payload := "", bodyClosed := false }

/-- A rate-limited response without a `Retry-After` header. -/
def rateLimitedPlain : Response :=
  { StatusCode := 429, Header := [], payload := "", bodyClosed := false }

/-- A successful response. -/
def okResponse : Response :=
  { StatusCode := 200, Header := [], payload := "done", bodyClosed := false }

/-- One 429 asking for 9223372037 seconds, then a 200; the context is never done. -/
def hugeRetryAfterNet : Net :=
  { transport := fun i => if i = 0 then .ok (rateLimited "9223372037") else .ok okResponse,
    ctxDone := fun _ => false,
    ctxErr := "context canceled" }

/-- A transport with three retries whose initial backoff is `2^62` nanoseconds. -/
def longBackoffTransport : backoffTransport :=
  { maxRetries := 3, initialBackoff := 2 ^ 62 }

/-- Every attempt is answered by a 429 without `Retry-After`; the context is never done. -/
def plainRateLimitedNet : Net :=
  { transport := fun _ => .ok rateLimitedPlain,
    ctxDone := fun _ => false,
    ctxErr := "context canceled" }

/-- Six rate-limited answers: no header, `0`, unparseable, negative, no header, no header. -/
def alwaysRateLimitedNet : Net :=
  { transport := fun i =>
      if i = 1 then .ok (rateLimited "0")
      else if i = 2 then .ok (rateLimited "soon")
      else if i = 3 then .ok (rateLimited "-3")
      else .ok rateLimitedPlain,
    ctxDone := fun _ => false,
    ctxErr := "context canceled" }

/-- A 429 without `Retry-After`, then a 503 asking for 30 seconds; the context is never done. -/
def retryThenUnavailableNet : Net :=
  { transport := fun i =>
      if i = 0 then .ok rateLimitedPlain
      else .ok { StatusCode := 503, Header := [("Retry-After", "30")], payload := "",
                 bodyClosed := false },
    ctxDone := fun _ => false,
    ctxErr := "context canceled" }

/-- An issue with a status, no assignee and no custom fields. -/
def plainIssue (key : String) : Issue :=
  { Key := key,
    Fields := { Status := some { Name := "New" }, Assignee := none, Summary := key,
                Unknowns := none } }

/-- A tracker whose tracking query matches `A`, `X` and `B` on one short page,
where `X` cannot be fetched and no issue has a clone. -/
def exampleJira : Jira :=
  { IssueGet := fun issueID _ =>
      if issueID = "X" then .error "404" else .ok (plainIssue issueID),
    IssueSearch := fun jql options =>
      if jql = trackingJql then (if options.StartAt = 0 then .ok ["A", "X", "B"] else .ok [])
      else .ok [] }

/-- A store whose calls never fail. -/
def exampleMongo : Mongo :=
  { updateOneErr := fun _ _ => none, deleteManyErr := fun _ => none }

/-- Stored records `A` (marked completed), `B` and `C`. -/
def exampleCollection : Collection :=
  [ [("_id", .str "A"), ("summary", .str "old"), ("completed", .bool true)],
    [("_id", .str "B")],
    [("_id", .str "C")] ]

/-- Stored records `A` and `X`. -/
def exampleCollectionX : Collection :=
  [ [("_id", .str "A")], [("_id", .str "X"), ("summary", .str "old")] ]

/-- The snapshot of a plain issue at depth 0. -/
def plainSnapshot (key : String) : M :=
  [("_id", .str key), ("status", .str "New"), ("target_version", .str ""),
   ("summary", .str key), ("target_backport_versions", .str "")]

/-- The state `syncIssues` leaves behind on `exampleCollection`. -/
def exampleFinal : SyncState :=
  { collection :=
      [ [("_id", .str "A"), ("summary", .str "A"), ("completed", .bool true),
         ("status", .str "New"), ("target_version", .str ""),
         ("target_backport_versions", .str "")],
        [("_id", .str "B"), ("status", .str "New"), ("target_version", .str ""),
         ("summary", .str "B"), ("target_backport_versions", .str "")] ],
    updatedDocuments := [("A", true), ("B", true)],
    log := [.upserted "A", .errorStoring "X" "error getting issue X: 404", .upserted "B",
            .removed 1] }

/-- An issue whose only unknown field is `customfield_12319940` with this value. -/
def issueWithTargetVersion (v : JValue) : Issue :=
  { Key := "OCPBUGS-1",
    Fields := { Status := none, Assignee := none, Summary := "",
                Unknowns := some [("customfield_12319940", v)] } }

/-- Two version entries, `4.18.0` before `4.19.0`, each followed by its `self` link. -/
def twoVersions : List NameEntry :=
  [ { pre := [("id", .str "1")], name := "4.18.0", post := [("self", .str "https://tracker/version/1")] },
    { pre := [("id", .str "2")], name := "4.19.0", post := [("self", .str "https://tracker/version/2")] } ]

/-- Two rate-limited answers without `Retry-After`, then a 200; the context is never done. -/
def twoRetriesNet : Net :=
  { transport := fun i => if i < 2 then .ok rateLimitedPlain else .ok okResponse,
    ctxDone := fun _ => false,
    ctxErr := "context canceled" }

/-- A tracker on which `A` and `B` clone each other and every fetch succeeds. -/
def cycleJira : Jira :=
  { IssueGet := fun issueID _ => .ok (plainIssue issueID),
    IssueSearch := fun jql _ =>
      if jql = cloneJql "A" then .ok ["B"]
      else if jql = cloneJql "B" then .ok ["A"]
      else .ok [] }

/-- The keys met when following the clone links from `A` on `cycleJira`. -/
def cycleKeys (i : Nat) : String := if i % 2 = 0 then "A" else "B"

/-- The state `syncIssues` leaves behind on `exampleCollectionX`. -/
def exampleFinalX : SyncState :=
  { collection :=
      [ [("_id", .str "A"), ("status", .str "New"), ("target_version", .str ""),
         ("summary", .str "A"), ("target_backport_versions", .str "")],
        [("_id", .str "B"), ("status", .str "New"), ("target_version", .str ""),
         ("summary", .str "B"), ("target_backport_versions", .str "")] ],
    updatedDocuments := [("A", true), ("B", true)],
    log := [.upserted "A", .errorStoring "X" "error getting issue X: 404", .upserted "B",
            .removed 1] }

/-! # Theorems -/

/-! ## Retrying transport: arithmetic on `int64` -/

theorem wrapInt64_modEq (x : Int) : wrapInt64 x ≡ x [ZMOD 2 ^ 64] := by
  unfold wrapInt64
  have h : (x + 2 ^ 63) % 2 ^ 64 ≡ x + 2 ^ 63 [ZMOD 2 ^ 64] := Int.mod_modEq _ _
  have := h.sub_right (2 ^ 63)
  simpa using this

theorem wrapInt64_congr {x y : Int} (h : x ≡ y [ZMOD 2 ^ 64]) : wrapInt64 x = wrapInt64 y := by
  unfold wrapInt64
  have h2 : x + 2 ^ 63 ≡ y + 2 ^ 63 [ZMOD 2 ^ 64] := h.add_right _
  rw [h2.eq]

theorem wrapInt64_isInt64 (x : Int) : isInt64 (wrapInt64 x) := by
  unfold isInt64 wrapInt64
  have h1 := Int.emod_nonneg (x + 2 ^ 63) (by norm_num : (2 : Int) ^ 64 ≠ 0)
  have h2 := Int.emod_lt_of_pos (x + 2 ^ 63) (by norm_num : (0 : Int) < 2 ^ 64)
  constructor <;> omega

theorem wrapInt64_of_isInt64 {x : Int} (h : isInt64 x) : wrapInt64 x = x := by
  unfold isInt64 at h
  unfold wrapInt64
  rw [Int.emod_eq_of_lt (by omega) (by omega)]
  omega

theorem wrapInt64_mul_pow (b : Int) (k : Nat) :
    wrapInt64 (wrapInt64 (b * 2) * 2 ^ k) = wrapInt64 (b * 2 ^ (k + 1)) := by
  apply wrapInt64_congr
  have h := (wrapInt64_modEq (b * 2)).mul_right (2 ^ k)
  refine h.trans ?_
  rw [pow_succ]
  ring_nf
  rfl

/-! ## Retrying transport: the response returned -/

theorem RoundTrip.loop_spec (t : backoffTransport) (net : Net)
    (hok : ∀ i : Nat, (i : Int) ≤ t.maxRetries → ∃ r, net.transport i = .ok r)
    (hnc : ∀ i : Nat, net.ctxDone i = false) :
    ∀ (n : Nat) (retries backoff : Int) (resp : Option Response) (a : Nat) (timers : List Int),
      (a : Int) = retries → retries ≤ t.maxRetries → (t.maxRetries - retries).toNat = n →
      ∃ (j : Nat) (r : Response), a ≤ j ∧ (j : Int) ≤ t.maxRetries ∧ net.transport j = .ok r ∧
        (∀ i, a ≤ i → i < j → ∃ r', net.transport i = .ok r' ∧ r'.StatusCode = 429) ∧
        (r.StatusCode ≠ 429 ∨ (j : Int) = t.maxRetries) ∧
        (RoundTrip.loop t net retries backoff resp a timers).resp = some r ∧
        (RoundTrip.loop t net retries backoff resp a timers).err = none ∧
        (RoundTrip.loop t net retries backoff resp a timers).attempts = j + 1 := by
  intro n
  induction n with
  | zero =>
    intro retries backoff resp a timers ha hle hn
    have hEq : retries = t.maxRetries := by omega
    obtain ⟨r, hr⟩ := hok a (by omega)
    refine ⟨a, r, le_refl _, by omega, hr, ?_, Or.inr (by omega), ?_, ?_, ?_⟩
    · intro i h1 h2; omega
    all_goals
      rw [RoundTrip.loop]
      simp [hle, hr, hEq]
  | succ n ih =>
    intro retries backoff resp a timers ha hle hn
    have hne : retries ≠ t.maxRetries := by omega
    obtain ⟨r, hr⟩ := hok a (by omega)
    by_cases hs : r.StatusCode = 429
    · obtain ⟨j, r', h1, h2, h3, h4, h5, h6, h7, h8⟩ :=
        ih (retries + 1) (sleepDurationOf (retryAfterOf r) backoff).2
          (some { r with bodyClosed := true }) (a + 1)
          (timers ++ [(sleepDurationOf (retryAfterOf r) backoff).1])
          (by push_cast; omega) (by omega) (by omega)
      refine ⟨j, r', by omega, h2, h3, ?_, h5, ?_, ?_, ?_⟩
      · intro i hi1 hi2
        by_cases hia : i = a
        · subst hia; exact ⟨r, hr, hs⟩
        · exact h4 i (by omega) hi2
      all_goals
        rw [RoundTrip.loop]
        simp [hle, hr, hs, hne, hnc]
        simp only [hs] at h6 h7 h8
        assumption
    · refine ⟨a, r, le_refl _, by omega, hr, ?_, Or.inl hs, ?_, ?_, ?_⟩
      · intro i h1 h2; omega
      all_goals
        rw [RoundTrip.loop]
        simp [hle, hr, hs]

/-- C1: with `maxRetries ≥ 0`, every permitted attempt answered by a response
and no cancellation, `RoundTrip` returns with a nil error the response of
attempt `j`, unchanged, where `j` is the first attempt whose status is not 429
or, when attempts `0..maxRetries` are all 429, `j = maxRetries`; exactly `j+1`
attempts, hence at most `maxRetries+1`, are issued. -/
theorem RoundTrip_returns_first_non429_or_last (t : backoffTransport) (net : Net)
    (h0 : 0 ≤ t.maxRetries)
    (hok : ∀ i : Nat, (i : Int) ≤ t.maxRetries → ∃ r, net.transport i = .ok r)
    (hnc : ∀ i : Nat, net.ctxDone i = false) :
    ∃ (j : Nat) (r : Response), (j : Int) ≤ t.maxRetries ∧ net.transport j = .ok r ∧
      (∀ i, i < j → ∃ r', net.transport i = .ok r' ∧ r'.StatusCode = 429) ∧
      (r.StatusCode ≠ 429 ∨ (j : Int) = t.maxRetries) ∧
      (RoundTrip t net).resp = some r ∧ (RoundTrip t net).err = none ∧
      (RoundTrip t net).attempts = j + 1 ∧
      ((RoundTrip t net).attempts : Int) ≤ t.maxRetries + 1 := by
  obtain ⟨j, r, -, h2, h3, h4, h5, h6, h7, h8⟩ :=
    RoundTrip.loop_spec t net hok hnc (t.maxRetries - 0).toNat 0 t.initialBackoff none 0 []
      (by simp) h0 rfl
  refine ⟨j, r, h2, h3, fun i hi => h4 i (Nat.zero_le _) hi, h5, h6, h7, h8, ?_⟩
  unfold RoundTrip
  rw [h8]
  push_cast
  omega

/-! ## Retrying transport: server-directed wait -/

theorem Atoi_samples :
    strconv.Atoi "9223372037" = some 9223372037 ∧ strconv.Atoi "" = none ∧
    strconv.Atoi "-" = none ∧ strconv.Atoi "+5" = some 5 ∧ strconv.Atoi "-5" = some (-5) ∧
    strconv.Atoi "9223372036854775807" = some 9223372036854775807 ∧
    strconv.Atoi "9223372036854775808" = none ∧
    strconv.Atoi "-9223372036854775808" = some (-9223372036854775808) ∧
    strconv.Atoi "1_0" = none ∧ strconv.Atoi " 10" = none ∧ strconv.Atoi "0" = some 0 := by
  decide

theorem sleepDurationOf_retryAfter_in_range (retryAfter backoff : Int)
    (h0 : 0 < retryAfter) (h1 : retryAfter ≤ 9223372036) :
    sleepDurationOf retryAfter backoff = (retryAfter * Second, backoff) := by
  unfold sleepDurationOf
  have hfit : isInt64 (retryAfter * Second) := by
    unfold isInt64 Second
    constructor <;> omega
  simp [h0, wrapInt64_of_isInt64 hfit]

/-- C9 fails on the code: a 429 whose `Retry-After` is `9223372037` is
accepted by `strconv.Atoi`, the product with `time.Second` wraps around in
`int64`, and the wait handed to the timer is negative instead of at least
9223372037 seconds. -/
theorem RoundTrip_retryAfter_overflow :
    strconv.Atoi "9223372037" = some 9223372037 ∧
    RoundTrip configuredTransport hugeRetryAfterNet =
      ⟨some okResponse, none, 2, [-9223372036709551616]⟩ ∧
    (-9223372036709551616 : Int) < 9223372037 * Second := by
  refine ⟨by decide, ?_, by decide⟩
  have h : retryAfterOf (rateLimited "9223372037") = 9223372037 := by decide
  have h2 : (rateLimited "9223372037").StatusCode = 429 := rfl
  have h3 : okResponse.StatusCode = 200 := rfl
  have h4 : wrapInt64 (9223372037 * Second) = -9223372036709551616 := by decide
  unfold RoundTrip
  rw [RoundTrip.loop]
  simp [configuredTransport, hugeRetryAfterNet, h, h2, sleepDurationOf, h4]
  rw [RoundTrip.loop]
  simp [h3]

/-! ## Retrying transport: exponential backoff -/

theorem retryAfterOf_of_noPositive {resp : Response} (h : noPositiveRetryAfter resp) :
    retryAfterOf resp ≤ 0 := by
  unfold retryAfterOf
  simp only
  split
  · split
    · next n hn => exact h n hn
    · exact le_refl _
  · exact le_refl _

theorem RoundTrip.loop_timers (t : backoffTransport) (net : Net)
    (hra : ∀ (i : Nat) (r : Response), net.transport i = .ok r → r.StatusCode = 429 →
      noPositiveRetryAfter r) :
    ∀ (n : Nat) (retries backoff : Int) (resp : Option Response) (a : Nat) (timers : List Int),
      isInt64 backoff → (t.maxRetries + 1 - retries).toNat = n →
      ∃ m : Nat, (m : Int) ≤ max 0 (t.maxRetries - retries) ∧
        (RoundTrip.loop t net retries backoff resp a timers).timers =
          timers ++ (List.range m).map (fun k => wrapInt64 (backoff * 2 ^ k)) := by
  intro n
  induction n with
  | zero =>
    intro retries backoff resp a timers _ hn
    refine ⟨0, by simp, ?_⟩
    rw [RoundTrip.loop]
    have : ¬ retries ≤ t.maxRetries := by omega
    simp [this]
  | succ n ih =>
    intro retries backoff resp a timers hb hn
    have hle : retries ≤ t.maxRetries := by omega
    rw [RoundTrip.loop]
    simp only [hle, if_true]
    cases hr : net.transport a with
    | error e => exact ⟨0, by simp, by simp⟩
    | ok r =>
      simp only
      by_cases hc : r.StatusCode ≠ 429 ∨ retries = t.maxRetries
      · exact ⟨0, by simp, by simp [hc]⟩
      · simp only [hc, if_false]
        have h429 : r.StatusCode = 429 := by
          by_contra hne429
          exact hc (Or.inl hne429)
        have hra0 := retryAfterOf_of_noPositive (hra a r hr h429)
        have hsd : sleepDurationOf (retryAfterOf r) backoff = (backoff, wrapInt64 (backoff * 2)) := by
          unfold sleepDurationOf
          have : ¬ retryAfterOf r > 0 := by omega
          simp [this]
        simp only [hsd]
        have hne : retries ≠ t.maxRetries := fun h => hc (Or.inr h)
        by_cases hd : net.ctxDone a = true
        · refine ⟨1, ?_, ?_⟩
          · have : 0 < t.maxRetries - retries := by omega
            simp; omega
          · simp [hd, List.range_succ, wrapInt64_of_isInt64 hb]
        · obtain ⟨m, hm1, hm2⟩ := ih (retries + 1) (wrapInt64 (backoff * 2))
            (some { r with bodyClosed := true }) (a + 1) (timers ++ [backoff])
            (wrapInt64_isInt64 _) (by omega)
          refine ⟨m + 1, ?_, ?_⟩
          · have : 0 < t.maxRetries - retries := by omega
            push_cast
            omega
          · simp only [hd]
            simp only [Bool.false_eq_true, if_false]
            rw [hm2, List.range_succ_eq_map, List.map_cons, List.map_map]
            simp only [List.append_assoc, List.singleton_append, pow_zero, mul_one,
              wrapInt64_of_isInt64 hb]
            congr 2
            apply List.map_congr_left
            intro k _
            simp only [Function.comp]
            exact wrapInt64_mul_pow backoff k

theorem RoundTrip.loop_timers_all429 (t : backoffTransport) (net : Net)
    (h429 : ∀ i : Nat, (i : Int) ≤ t.maxRetries →
      ∃ r, net.transport i = .ok r ∧ r.StatusCode = 429)
    (hnc : ∀ i : Nat, net.ctxDone i = false) :
    ∀ (n : Nat) (retries backoff : Int) (resp : Option Response) (a : Nat) (timers : List Int),
      (a : Int) = retries → (t.maxRetries + 1 - retries).toNat = n →
      ((RoundTrip.loop t net retries backoff resp a timers).timers.length : Int) =
        timers.length + max 0 (t.maxRetries - retries) := by
  intro n
  induction n with
  | zero =>
    intro retries backoff resp a timers _ hn
    rw [RoundTrip.loop]
    have h1 : ¬ retries ≤ t.maxRetries := by omega
    have h2 : max 0 (t.maxRetries - retries) = 0 := by omega
    simp [h1, h2]
  | succ n ih =>
    intro retries backoff resp a timers ha hn
    have hle : retries ≤ t.maxRetries := by omega
    obtain ⟨r, hr, hs⟩ := h429 a (by omega)
    rw [RoundTrip.loop]
    by_cases he : retries = t.maxRetries
    · have h2 : max 0 (t.maxRetries - retries) = 0 := by omega
      simp [hle, hr, he]
    · have h3 := ih (retries + 1) (sleepDurationOf (retryAfterOf r) backoff).2
        (some { r with bodyClosed := true }) (a + 1)
        (timers ++ [(sleepDurationOf (retryAfterOf r) backoff).1]) (by push_cast; omega)
        (by omega)
      simp only [hs] at h3
      simp [hle, hr, hs, he, hnc]
      rw [h3]
      simp
      omega

/-- C10, amended: when no rate-limited response carries a `Retry-After` that
parses to a positive integer (absent, zero, negative or unparseable), the waits
of one `RoundTrip` call are `initialBackoff * 2^k` for `k = 0, 1, ...` as Go
computes them on the `int64` type of `time.Duration`, that is wrapped into the
64-bit signed range; there are at most `maxRetries` of them; they are exactly
`initialBackoff * 2^k` whenever these products are representable; and there
are exactly `maxRetries` of them when every attempt is rate limited and the
context is never done. -/
theorem RoundTrip_exponential_waits (t : backoffTransport) (net : Net)
    (hwf : isInt64 t.initialBackoff)
    (hra : ∀ (i : Nat) (r : Response), net.transport i = .ok r → r.StatusCode = 429 →
      noPositiveRetryAfter r) :
    ((RoundTrip t net).timers.length : Int) ≤ max 0 t.maxRetries ∧
    (RoundTrip t net).timers =
      (List.range (RoundTrip t net).timers.length).map
        (fun k => wrapInt64 (t.initialBackoff * 2 ^ k)) ∧
    ((∀ k : Nat, (k : Int) < t.maxRetries → isInt64 (t.initialBackoff * 2 ^ k)) →
      (RoundTrip t net).timers =
        (List.range (RoundTrip t net).timers.length).map (fun k => t.initialBackoff * 2 ^ k)) ∧
    ((∀ i : Nat, (i : Int) ≤ t.maxRetries → ∃ r, net.transport i = .ok r ∧ r.StatusCode = 429) →
      (∀ i : Nat, net.ctxDone i = false) →
      ((RoundTrip t net).timers.length : Int) = max 0 t.maxRetries) := by
  obtain ⟨m, hm1, hm2⟩ := RoundTrip.loop_timers t net hra (t.maxRetries + 1 - 0).toNat 0
    t.initialBackoff none 0 [] hwf rfl
  have hlen : (RoundTrip t net).timers.length = m := by
    unfold RoundTrip
    rw [hm2]
    simp
  have hm1' : (m : Int) ≤ max 0 t.maxRetries := by simpa using hm1
  refine ⟨by rw [hlen]; exact hm1', ?_, ?_, ?_⟩
  · rw [hlen]
    unfold RoundTrip
    rw [hm2]
    simp
  · intro hfit
    rw [hlen]
    unfold RoundTrip
    rw [hm2]
    simp only [List.nil_append]
    apply List.map_congr_left
    intro k hk
    rw [List.mem_range] at hk
    exact wrapInt64_of_isInt64 (hfit k (by omega))
  · intro h429 hnc
    have h := RoundTrip.loop_timers_all429 t net h429 hnc (t.maxRetries + 1 - 0).toNat 0
      t.initialBackoff none 0 [] (by simp) rfl
    unfold RoundTrip
    rw [h]
    simp

/-- C10 as stated fails: with an initial backoff of `2^62` nanoseconds and no
`Retry-After` at all, the waits before the three retries are `2^62`, `-2^63`
and `0` nanoseconds, not `2^62`, `2^63` and `2^64`: the doubling wraps around
in `int64`. -/
theorem RoundTrip_backoff_doubling_wraps :
    (∀ (i : Nat) (r : Response), plainRateLimitedNet.transport i = .ok r →
      r.StatusCode = 429 → noPositiveRetryAfter r) ∧
    (RoundTrip longBackoffTransport plainRateLimitedNet).timers = [2 ^ 62, -2 ^ 63, 0] ∧
    (RoundTrip longBackoffTransport plainRateLimitedNet).timers ≠
      (List.range 3).map (fun k => longBackoffTransport.initialBackoff * 2 ^ k) := by
  have h1 : retryAfterOf rateLimitedPlain = 0 := by decide
  have h2 : rateLimitedPlain.StatusCode = 429 := rfl
  have ht : (RoundTrip longBackoffTransport plainRateLimitedNet).timers = [2 ^ 62, -2 ^ 63, 0] := by
    unfold RoundTrip
    rw [RoundTrip.loop]
    simp [longBackoffTransport, plainRateLimitedNet, h1, h2, sleepDurationOf]
    rw [RoundTrip.loop]
    simp [h1, h2, sleepDurationOf]
    rw [RoundTrip.loop]
    simp [h1, h2, sleepDurationOf]
    rw [RoundTrip.loop]
    simp [h2]
    decide
  refine ⟨?_, ht, ?_⟩
  · intro i r hr _ n hn
    have hr' : r = rateLimitedPlain := by
      simp only [plainRateLimitedNet, Except.ok.injEq] at hr
      exact hr.symm
    subst hr'
    have : strconv.Atoi (rateLimitedPlain.HeaderGet "Retry-After") = none := by decide
    rw [this] at hn
    cases hn
  · rw [ht]
    decide

theorem alwaysRateLimitedNet_noPositive (i : Nat) (r : Response)
    (h : alwaysRateLimitedNet.transport i = .ok r) (_ : r.StatusCode = 429) :
    noPositiveRetryAfter r := by
  unfold alwaysRateLimitedNet at h
  simp only at h
  split at h
  · cases h; intro n hn
    have : strconv.Atoi ((rateLimited "0").HeaderGet "Retry-After") = some 0 := by decide
    rw [this] at hn; cases hn; decide
  · split at h
    · cases h; intro n hn
      have : strconv.Atoi ((rateLimited "soon").HeaderGet "Retry-After") = none := by decide
      rw [this] at hn; cases hn
    · split at h
      · cases h; intro n hn
        have : strconv.Atoi ((rateLimited "-3").HeaderGet "Retry-After") = some (-3) := by decide
        rw [this] at hn; cases hn; decide
      · cases h; intro n hn
        have : strconv.Atoi (rateLimitedPlain.HeaderGet "Retry-After") = none := by decide
        rw [this] at hn; cases hn

theorem retryThenUnavailableNet_noPositive (i : Nat) (r : Response)
    (h : retryThenUnavailableNet.transport i = .ok r) (h429 : r.StatusCode = 429) :
    noPositiveRetryAfter r := by
  unfold retryThenUnavailableNet at h
  simp only at h
  split at h
  · cases h
    intro n hn
    have : strconv.Atoi (rateLimitedPlain.HeaderGet "Retry-After") = none := by decide
    rw [this] at hn
    cases hn
  · cases h
    simp at h429

theorem retryThenUnavailableNet_timers :
    (RoundTrip configuredTransport retryThenUnavailableNet).timers = [1 * Second] := by
  have h1 : retryAfterOf rateLimitedPlain = 0 := by decide
  have h2 : rateLimitedPlain.StatusCode = 429 := rfl
  unfold RoundTrip
  rw [RoundTrip.loop]
  simp [configuredTransport, retryThenUnavailableNet, h1, h2, sleepDurationOf]
  rw [RoundTrip.loop]
  simp

theorem RoundTrip_exponential_waits_witness :
    (RoundTrip configuredTransport alwaysRateLimitedNet).timers =
      [1 * Second, 2 * Second, 4 * Second, 8 * Second, 16 * Second] ∧
    (RoundTrip configuredTransport retryThenUnavailableNet).timers = [1 * Second] ∧
    (RoundTrip configuredTransport retryThenUnavailableNet).timers =
      (List.range (RoundTrip configuredTransport retryThenUnavailableNet).timers.length).map
        (fun k => wrapInt64 (configuredTransport.initialBackoff * 2 ^ k)) := by
  have h := RoundTrip_exponential_waits configuredTransport alwaysRateLimitedNet (by decide)
    alwaysRateLimitedNet_noPositive
  have h' := RoundTrip_exponential_waits configuredTransport retryThenUnavailableNet (by decide)
    retryThenUnavailableNet_noPositive
  refine ⟨?_, retryThenUnavailableNet_timers, h'.2.1⟩
  have hlen : (RoundTrip configuredTransport alwaysRateLimitedNet).timers.length = 5 := by
    have h4 := h.2.2.2 (fun i _ => by
      unfold alwaysRateLimitedNet
      simp only
      split
      · exact ⟨_, rfl, rfl⟩
      · split
        · exact ⟨_, rfl, rfl⟩
        · split
          · exact ⟨_, rfl, rfl⟩
          · exact ⟨_, rfl, rfl⟩) (fun _ => rfl)
    have : max (0 : Int) configuredTransport.maxRetries = 5 := by decide
    rw [this] at h4
    exact_mod_cast h4
  have h3 := h.2.2.1 (fun k hk => by
    have hk5 : k < 5 := by
      have : configuredTransport.maxRetries = 5 := rfl
      omega
    interval_cases k <;> decide)
  rw [hlen] at h3
  rw [h3]
  decide

/-! ## Clone-chain resolver: nesting depth -/

theorem cloneLevelsM_set_clone (m : M) (v : Value) :
    cloneLevelsM (M.set m "clone" v) = v.cloneLevels := by
  induction m with
  | nil => simp [M.set, cloneLevelsM]
  | cons kv rest ih =>
    obtain ⟨k, w⟩ := kv
    by_cases hk : k = "clone"
    · simp [M.set, cloneLevelsM, hk]
    · simp [M.set, cloneLevelsM, hk, ih]

theorem cloneLevelsM_set_other (m : M) (key : String) (v : Value) (hkey : key ≠ "clone") :
    cloneLevelsM (M.set m key v) = cloneLevelsM m := by
  induction m with
  | nil => simp [M.set, cloneLevelsM, hkey]
  | cons kv rest ih =>
    obtain ⟨k, w⟩ := kv
    by_cases hk : k = key
    · subst hk
      simp [M.set, cloneLevelsM, hkey]
    · by_cases hc : k = "clone"
      · subst hc
        simp [M.set, cloneLevelsM, hk]
      · simp [M.set, cloneLevelsM, hk, hc, ih]

theorem cloneLevelsM_snapshotOf (issue : Issue) (depth : Nat) :
    cloneLevelsM (snapshotOf issue depth) = 0 := by
  unfold snapshotOf
  simp only
  split <;> split <;> (try split) <;>
    simp [cloneLevelsM_set_other, cloneLevelsM]

theorem storeIssue_beyond (jira : Jira) (issueID : String) (depth : Nat)
    (h : depth > maxRecursionDepth) : storeIssue jira issueID depth = .ok none := by
  rw [storeIssue]
  simp [h]

theorem storeIssue_levels (jira : Jira) (K : Nat → String) (N : Nat)
    (hlink : ∀ i, i ≤ maxRecursionDepth → i < N → ClonesLinked jira K i)
    (hend : N ≤ maxRecursionDepth → ChainEnds jira K N) :
    ∀ k d, d + k = maxRecursionDepth → d ≤ N →
      ∃ snap, storeIssue jira (K d) d = .ok (some snap) ∧
        cloneLevelsM snap = min N maxRecursionDepth - d := by
  intro k
  induction k with
  | zero =>
    intro d hd hdN
    have hd6 : ¬ d > maxRecursionDepth := by omega
    rcases Nat.lt_or_ge d N with hlt | hge
    · obtain ⟨issue, hget, rest, hsearch⟩ := hlink d (by omega) hlt
      refine ⟨(snapshotOf issue d).set "clone" .nilM, ?_, ?_⟩
      · rw [storeIssue]
        simp only [hd6, if_false, hget, hsearch]
        rw [storeIssue_beyond jira (K (d + 1)) (d + 1) (by omega)]
        rfl
      · rw [cloneLevelsM_set_clone]
        simp [Value.cloneLevels]
        omega
    · have hdN' : d = N := by omega
      subst hdN'
      obtain ⟨issue, hget, hsearch⟩ := hend (by omega)
      refine ⟨snapshotOf issue d, ?_, ?_⟩
      · rw [storeIssue]
        simp only [hd6, if_false, hget, hsearch]
      · rw [cloneLevelsM_snapshotOf]
        omega
  | succ k ih =>
    intro d hd hdN
    have hd6 : ¬ d > maxRecursionDepth := by omega
    rcases Nat.lt_or_ge d N with hlt | hge
    · obtain ⟨issue, hget, rest, hsearch⟩ := hlink d (by omega) hlt
      obtain ⟨sub, hsub, hlev⟩ := ih (d + 1) (by omega) (by omega)
      refine ⟨(snapshotOf issue d).set "clone" (.doc sub), ?_, ?_⟩
      · rw [storeIssue]
        simp only [hd6, if_false, hget, hsearch, hsub]
        rfl
      · rw [cloneLevelsM_set_clone]
        simp only [Value.cloneLevels, hlev]
        omega
    · have hdN' : d = N := by omega
      subst hdN'
      obtain ⟨issue, hget, hsearch⟩ := hend (by omega)
      refine ⟨snapshotOf issue d, ?_, ?_⟩
      · rw [storeIssue]
        simp only [hd6, if_false, hget, hsearch]
      · rw [cloneLevelsM_snapshotOf]
        omega

/-- C2: for a root issue heading a clone chain of `N` links, or a chain that
never ends, with every fetch and link search succeeding, `storeIssue` at depth
0 returns a snapshot under whose `clone` keys exactly `min N 6` snapshots are
nested (6 for an endless chain). -/
theorem storeIssue_nests_min_chain_six (jira : Jira) (K : Nat → String) (len : Option Nat)
    (hchain : CloneChain jira K len) :
    ∃ snap, storeIssue jira (K 0) 0 = .ok (some snap) ∧
      cloneLevelsM snap = expectedLevels len := by
  cases len with
  | some N =>
    obtain ⟨hl, he⟩ := hchain
    obtain ⟨snap, h1, h2⟩ := storeIssue_levels jira K N (fun i _ hi => hl i hi) (fun _ => he)
      maxRecursionDepth 0 (by omega) (by omega)
    exact ⟨snap, h1, by simpa [expectedLevels] using h2⟩
  | none =>
    obtain ⟨snap, h1, h2⟩ := storeIssue_levels jira K (maxRecursionDepth + 1)
      (fun i _ _ => hchain i) (fun h => by omega) maxRecursionDepth 0 (by omega) (by omega)
    exact ⟨snap, h1, by simpa [expectedLevels] using h2⟩

/-! ## Documents and the store -/

theorem M.get_set (m : M) (key : String) (v : Value) (k : String) :
    M.get (M.set m key v) k = if k = key then some v else M.get m k := by
  induction m with
  | nil =>
    by_cases h : k = key
    · simp [M.set, M.get, h]
    · have h' : ¬ key = k := fun e => h e.symm
      simp [M.set, M.get, h, h']
  | cons kv rest ih =>
    obtain ⟨k0, w⟩ := kv
    by_cases h0 : k0 = key
    · subst h0
      by_cases h : k = k0
      · subst h; simp [M.set, M.get]
      · have h' : ¬ k0 = k := fun e => h e.symm
        simp [M.set, M.get, h, h']
    · by_cases h1 : k0 = k
      · subst h1
        simp [M.set, M.get, h0]
      · simp [M.set, M.get, h0, h1, ih]

theorem M.get_applySet_of_absent (data : M) (d : M) (k : String)
    (h : M.get data k = none) : M.get (applySet d data) k = M.get d k := by
  unfold applySet
  induction data generalizing d with
  | nil => rfl
  | cons kv rest ih =>
    obtain ⟨k0, w⟩ := kv
    have hk : ¬ k0 = k := by
      intro e
      simp [M.get, e] at h
    have hrest : M.get rest k = none := by
      simpa [M.get, hk] using h
    simp only [List.foldl_cons]
    rw [ih _ hrest, M.get_set]
    have hk' : ¬ k = k0 := fun e => hk e.symm
    simp [hk']

theorem hasId_applySet (key : String) (data : M) (d : M)
    (hd : hasId key d = true) (hk : keepsId key data = true) :
    hasId key (applySet d data) = true := by
  unfold applySet
  induction data generalizing d with
  | nil => simpa using hd
  | cons kv rest ih =>
    obtain ⟨k0, w⟩ := kv
    simp only [keepsId, List.all_cons, Bool.and_eq_true] at hk
    simp only [List.foldl_cons]
    apply ih
    · unfold hasId
      rw [M.get_set]
      by_cases h0 : k0 = "_id"
      · have hw : w.isStr key = true := by simpa [h0] using hk.1
        simp [h0, hw]
      · have h0' : ¬ "_id" = k0 := fun e => h0 e.symm
        simpa [h0', hasId] using hd
    · simpa [keepsId] using hk.2

theorem hasId_unique {k k' : String} {d : M} (h : hasId k d = true) (h' : hasId k' d = true) :
    k = k' := by
  unfold hasId at h h'
  cases hg : M.get d "_id" with
  | none => simp [hg] at h
  | some v =>
    cases v <;> simp_all [Value.isStr]

theorem updateFirst_none (key : String) (data : M) (c : Collection)
    (h : updateFirst key data c = none) : ¬ HasKey c key := by
  induction c with
  | nil => rintro ⟨d, hd, -⟩; cases hd
  | cons d rest ih =>
    unfold updateFirst at h
    by_cases hid : hasId key d = true
    · simp [hid] at h
    · simp only [hid, Bool.false_eq_true, if_false, Option.map_eq_none'] at h
      rintro ⟨d', hd', hk⟩
      rcases List.mem_cons.mp hd' with e | e
      · subst e; exact hid hk
      · exact ih h ⟨d', e, hk⟩

theorem updateFirst_some (key : String) (data : M) (hk : keepsId key data = true)
    (c c' : Collection) (h : updateFirst key data c = some c') :
    (∀ k, HasKey c' k ↔ HasKey c k) ∧ HasKey c key ∧
    (∀ d, c.findById key = some d → c'.findById key = some (applySet d data)) := by
  induction c generalizing c' with
  | nil => simp [updateFirst] at h
  | cons d rest ih =>
    unfold updateFirst at h
    by_cases hid : hasId key d = true
    · simp only [hid, if_true, Option.some.injEq] at h
      subst h
      have hid' := hasId_applySet key data d hid hk
      refine ⟨?_, ⟨d, List.mem_cons_self _ _, hid⟩, ?_⟩
      · intro k
        constructor
        · rintro ⟨d', hd', hk'⟩
          rcases List.mem_cons.mp hd' with e | e
          · subst e
            have : key = k := hasId_unique hid' hk'
            subst this
            exact ⟨d, List.mem_cons_self _ _, hid⟩
          · exact ⟨d', List.mem_cons_of_mem _ e, hk'⟩
        · rintro ⟨d', hd', hk'⟩
          rcases List.mem_cons.mp hd' with e | e
          · subst e
            have : key = k := hasId_unique hid hk'
            subst this
            exact ⟨_, List.mem_cons_self _ _, hid'⟩
          · exact ⟨d', List.mem_cons_of_mem _ e, hk'⟩
      · intro d0 hd0
        simp only [Collection.findById, List.find?_cons, hid] at hd0
        cases hd0
        simp [Collection.findById, List.find?_cons, hid']
    · simp only [hid, Bool.false_eq_true, if_false, Option.map_eq_some'] at h
      obtain ⟨rest', hrest, hc'⟩ := h
      subst hc'
      obtain ⟨h1, h2, h3⟩ := ih rest' hrest
      refine ⟨?_, ?_, ?_⟩
      · intro k
        constructor
        · rintro ⟨d', hd', hk'⟩
          rcases List.mem_cons.mp hd' with e | e
          · exact ⟨d', by rw [e]; exact List.mem_cons_self _ _, hk'⟩
          · obtain ⟨d'', hd'', hk''⟩ := (h1 k).mp ⟨d', e, hk'⟩
            exact ⟨d'', List.mem_cons_of_mem _ hd'', hk''⟩
        · rintro ⟨d', hd', hk'⟩
          rcases List.mem_cons.mp hd' with e | e
          · exact ⟨d', by rw [e]; exact List.mem_cons_self _ _, hk'⟩
          · obtain ⟨d'', hd'', hk''⟩ := (h1 k).mpr ⟨d', e, hk'⟩
            exact ⟨d'', List.mem_cons_of_mem _ hd'', hk''⟩
      · obtain ⟨d', hd', hk'⟩ := h2
        exact ⟨d', List.mem_cons_of_mem _ hd', hk'⟩
      · intro d0 hd0
        have hid2 : hasId key d = false := by simpa using hid
        simp only [Collection.findById, List.find?_cons, hid2] at hd0 ⊢
        exact h3 d0 hd0

theorem findById_none_of_not_hasKey (c : Collection) (key : String) (h : ¬ HasKey c key) :
    c.findById key = none := by
  unfold Collection.findById
  rw [List.find?_eq_none]
  intro d hd hk
  exact h ⟨d, hd, by simpa using hk⟩

theorem UpdateOne_ok (mongo : Mongo) (c c' : Collection) (key : String) (data : M)
    (h : c.UpdateOne mongo key data = .ok c') :
    mongo.updateOneErr key data = none ∧ keepsId key data = true ∧
    (∀ k, HasKey c' k ↔ (HasKey c k ∨ k = key)) ∧
    (∀ d, c.findById key = some d → c'.findById key = some (applySet d data)) := by
  unfold Collection.UpdateOne at h
  cases he : mongo.updateOneErr key data with
  | some err => simp [he] at h
  | none =>
    simp only [he] at h
    by_cases hk : keepsId key data = true
    · simp only [hk, if_true] at h
      refine ⟨rfl, hk, ?_⟩
      cases hu : updateFirst key data c with
      | some c1 =>
        simp only [hu, Except.ok.injEq] at h
        subst h
        obtain ⟨h1, h2, h3⟩ := updateFirst_some key data hk c c1 hu
        refine ⟨?_, h3⟩
        intro k
        rw [h1 k]
        constructor
        · exact Or.inl
        · rintro (h | h)
          · exact h
          · subst h; exact h2
      | none =>
        simp only [hu, Except.ok.injEq] at h
        subst h
        have hno := updateFirst_none key data c hu
        have hnew : hasId key (applySet [("_id", .str key)] data) = true :=
          hasId_applySet key data _ (by simp [hasId, M.get, Value.isStr]) hk
        refine ⟨?_, ?_⟩
        · intro k
          constructor
          · rintro ⟨d, hd, hkd⟩
            rcases List.mem_append.mp hd with e | e
            · exact Or.inl ⟨d, e, hkd⟩
            · simp only [List.mem_singleton] at e
              subst e
              exact Or.inr (hasId_unique hkd hnew)
          · rintro (⟨d, hd, hkd⟩ | h)
            · exact ⟨d, List.mem_append_left _ hd, hkd⟩
            · subst h
              exact ⟨_, List.mem_append_right _ (List.mem_singleton_self _), hnew⟩
        · intro d hd
          rw [findById_none_of_not_hasKey c key hno] at hd
          cases hd
    · simp [hk] at h

theorem UpdateOne_succeeds (mongo : Mongo) (c : Collection) (key : String) (data : M)
    (he : mongo.updateOneErr key data = none) (hk : keepsId key data = true) :
    ∃ c', c.UpdateOne mongo key data = .ok c' := by
  unfold Collection.UpdateOne
  simp only [he, hk, if_true]
  cases updateFirst key data c with
  | some c1 => exact ⟨c1, rfl⟩
  | none => exact ⟨_, rfl⟩

theorem UpdateOne_fails (mongo : Mongo) (c : Collection) (key : String) (data : M)
    (h : ¬ (mongo.updateOneErr key data = none ∧ keepsId key data = true)) :
    ∃ err, c.UpdateOne mongo key data = .error err := by
  unfold Collection.UpdateOne
  cases he : mongo.updateOneErr key data with
  | some err => exact ⟨err, rfl⟩
  | none =>
    have hk : ¬ keepsId key data = true := fun hk => h ⟨he, hk⟩
    simp [hk]

/-! ## One issue of a sync run -/

theorem getMapKeys_eq_map (m : List (String × Bool)) : getMapKeys m = m.map Prod.fst := by
  unfold getMapKeys
  suffices h : ∀ acc : List String,
      m.foldl (fun keys kv => keys ++ [kv.1]) acc = acc ++ m.map Prod.fst by
    simpa using h []
  induction m with
  | nil => intro acc; simp
  | cons kv rest ih => intro acc; simp [ih]

theorem mem_getMapKeys_markUpdated (m : List (String × Bool)) (key k : String) :
    k ∈ getMapKeys (markUpdated m key) ↔ k ∈ getMapKeys m ∨ k = key := by
  simp only [getMapKeys_eq_map]
  induction m with
  | nil => simp [markUpdated]
  | cons kv rest ih =>
    obtain ⟨k0, b⟩ := kv
    by_cases h0 : k0 = key
    · subst h0
      simp only [markUpdated, if_true, List.map_cons, List.mem_cons]
      tauto
    · simp only [markUpdated, h0, if_false, List.map_cons, List.mem_cons, ih]
      tauto

theorem storeIssue_zero_ne_none (jira : Jira) (key : String) :
    storeIssue jira key 0 ≠ .ok none := by
  rw [storeIssue]
  simp only [maxRecursionDepth, gt_iff_lt, Nat.not_lt_zero, if_false]
  split
  · simp
  · split
    · simp
    · split
      · split <;> simp
      · simp

theorem processIssue_success (jira : Jira) (mongo : Mongo) (st : SyncState) (key : String)
    (h : resolvedAndUpserted jira mongo key) :
    ∃ data c, storeIssue jira key 0 = .ok (some data) ∧
      st.collection.UpdateOne mongo key data = .ok c ∧
      processIssue jira mongo st key =
        { collection := c, updatedDocuments := markUpdated st.updatedDocuments key,
          log := st.log ++ [.upserted key] } := by
  obtain ⟨data, hs, he, hk⟩ := h
  obtain ⟨c, hc⟩ := UpdateOne_succeeds mongo st.collection key data he hk
  refine ⟨data, c, hs, hc, ?_⟩
  unfold processIssue
  simp [hs, hc]

theorem processIssue_failure (jira : Jira) (mongo : Mongo) (st : SyncState) (key : String)
    (h : ¬ resolvedAndUpserted jira mongo key) :
    ∃ line, line.key? = some key ∧ (∀ k, line ≠ .upserted k) ∧
      processIssue jira mongo st key = { st with log := st.log ++ [line] } := by
  unfold processIssue
  cases hs : storeIssue jira key 0 with
  | error err => exact ⟨.errorStoring key err, rfl, by simp, rfl⟩
  | ok data =>
    cases data with
    | none => exact absurd hs (storeIssue_zero_ne_none jira key)
    | some data =>
      have hf : ¬ (mongo.updateOneErr key data = none ∧ keepsId key data = true) :=
        fun hh => h ⟨data, hs, hh.1, hh.2⟩
      obtain ⟨err, herr⟩ := UpdateOne_fails mongo st.collection key data hf
      refine ⟨.errorUpserting key err, rfl, by simp, ?_⟩
      simp [herr]

theorem SyncInv.init (jira : Jira) (mongo : Mongo) (c0 : Collection) :
    SyncInv jira mongo c0 [] { collection := c0, updatedDocuments := [], log := [] } := by
  constructor <;> simp [touchedKeys, getMapKeys]

theorem SyncInv.step (jira : Jira) (mongo : Mongo) (c0 : Collection) (seen : List String)
    (st : SyncState) (key : String) (hinv : SyncInv jira mongo c0 seen st) :
    SyncInv jira mongo c0 (seen ++ [key]) (processIssue jira mongo st key) := by
  by_cases h : resolvedAndUpserted jira mongo key
  · obtain ⟨data, c, _, hc, hp⟩ := processIssue_success jira mongo st key h
    obtain ⟨_, _, hkeys, _⟩ := UpdateOne_ok mongo st.collection c key data hc
    rw [hp]
    constructor
    · intro k
      simp only [touchedKeys, mem_getMapKeys_markUpdated]
      rw [hkeys k, hinv.keys k]
      simp only [touchedKeys]
      tauto
    · intro k
      simp only [touchedKeys, mem_getMapKeys_markUpdated, List.mem_append, List.mem_singleton]
      have := hinv.touched k
      simp only [touchedKeys] at this
      rw [this]
      constructor
      · rintro (⟨h1, h2⟩ | h1)
        · exact ⟨Or.inl h1, h2⟩
        · subst h1; exact ⟨Or.inr rfl, h⟩
      · rintro ⟨h1 | h1, h2⟩
        · exact Or.inl ⟨h1, h2⟩
        · exact Or.inr h1
    · simp [List.filterMap_append, hinv.logKeys, LogLine.key?]
    · intro k
      simp only [touchedKeys, mem_getMapKeys_markUpdated, List.mem_append, List.mem_singleton]
      have := hinv.upserted k
      simp only [touchedKeys] at this
      rw [this]
      simp
  · obtain ⟨line, hl1, hl2, hp⟩ := processIssue_failure jira mongo st key h
    rw [hp]
    constructor
    · exact hinv.keys
    · intro k
      have := hinv.touched k
      simp only [touchedKeys] at this ⊢
      rw [this]
      simp only [List.mem_append, List.mem_singleton]
      constructor
      · rintro ⟨h1, h2⟩; exact ⟨Or.inl h1, h2⟩
      · rintro ⟨h1 | h1, h2⟩
        · exact ⟨h1, h2⟩
        · subst h1; exact absurd h2 h
    · simp [List.filterMap_append, hinv.logKeys, hl1]
    · intro k
      have := hinv.upserted k
      simp only [touchedKeys] at this ⊢
      rw [← this]
      simp only [List.mem_append, List.mem_singleton]
      constructor
      · rintro (h1 | h1)
        · exact h1
        · exact absurd h1.symm (hl2 k)
      · exact Or.inl

theorem SyncInv.page (jira : Jira) (mongo : Mongo) (c0 : Collection) (issues : List String) :
    ∀ (seen : List String) (st : SyncState), SyncInv jira mongo c0 seen st →
      SyncInv jira mongo c0 (seen ++ issues) (issues.foldl (processIssue jira mongo) st) := by
  induction issues with
  | nil => intro seen st h; simpa using h
  | cons key rest ih =>
    intro seen st h
    have h1 := SyncInv.step jira mongo c0 seen st key h
    have h2 := ih (seen ++ [key]) _ h1
    simpa using h2

theorem SyncInv.pages (jira : Jira) (mongo : Mongo) (c0 : Collection) :
    ∀ (fuel startAt : Nat) (seen : List String) (st st' : SyncState) (e : Option String),
      SyncInv jira mongo c0 seen st →
      syncPages jira mongo fuel startAt st = some (e, st') →
      SyncInv jira mongo c0 (seen ++ matchedKeys jira fuel startAt) st' := by
  intro fuel
  induction fuel with
  | zero => intro startAt seen st st' e _ h; simp [syncPages] at h
  | succ fuel ih =>
    intro startAt seen st st' e hinv h
    unfold syncPages at h
    unfold matchedKeys
    simp only [trackingOptions]
    cases hs : jira.IssueSearch trackingJql { StartAt := startAt, MaxResults := 50, Fields := ["status"] } with
    | error err =>
      simp only [hs, Option.some.injEq, Prod.mk.injEq] at h
      obtain ⟨-, rfl⟩ := h
      simpa using hinv
    | ok issues =>
      simp only [hs] at h
      have hp := SyncInv.page jira mongo c0 issues seen st hinv
      by_cases hlen : issues.length < 50
      · simp only [hlen, if_true, Option.some.injEq, Prod.mk.injEq] at h
        obtain ⟨-, rfl⟩ := h
        simpa [hlen] using hp
      · simp only [hlen, if_false] at h
        have := ih _ _ _ _ _ hp h
        simpa [hlen, trackingOptions] using this

theorem syncPages_terminates (jira : Jira) (mongo : Mongo) (p : Nat)
    (hend : PaginationEnds jira p) :
    ∀ (k i fuel : Nat) (st : SyncState), i + k = p → k < fuel →
      ∃ st', syncPages jira mongo fuel (pageStart jira i) st = some (none, st') := by
  intro k
  induction k with
  | zero =>
    intro i fuel st hi hf
    obtain ⟨issues, hs, hlen⟩ := hend.2
    have hip : i = p := by omega
    subst hip
    obtain ⟨f, rfl⟩ : ∃ f, fuel = f + 1 := ⟨fuel - 1, by omega⟩
    unfold syncPages
    simp only [trackingOptions] at hs
    simp [hs, hlen]
  | succ k ih =>
    intro i fuel st hi hf
    obtain ⟨issues, hs, hlen⟩ := hend.1 i (by omega)
    obtain ⟨f, rfl⟩ : ∃ f, fuel = f + 1 := ⟨fuel - 1, by omega⟩
    unfold syncPages
    have hnext : pageStart jira (i + 1) = pageStart jira i + issues.length := by
      simp [pageStart, hs]
    simp only [trackingOptions] at hs
    have hnl : ¬ issues.length < 50 := by omega
    simp only [hs, hnl, if_false]
    rw [← hnext]
    exact ih (i + 1) f _ (by omega) (by omega)

/-! ## Frame of the upsert -/

theorem snapshotOf_get_absent (issue : Issue) (depth : Nat) (k : String) (hk : k ∉ syncFields) :
    M.get (snapshotOf issue depth) k = none := by
  simp only [syncFields, List.mem_cons, List.mem_singleton, not_or, List.not_mem_nil,
    not_false_eq_true, and_true] at hk
  obtain ⟨h1, h2, h3, h4, h5, h6, h7⟩ := hk
  have hne : ∀ s : String, ¬ k = s → ¬ s = k := fun s h e => h e.symm
  unfold snapshotOf
  simp only
  split <;> split <;> (try split) <;>
    simp [M.get_set, M.get, h1, h2, h3, h4, h5, h6, hne _ h1, hne _ h2, hne _ h3, hne _ h4,
      hne _ h5, hne _ h6]

theorem storeIssue_get_absent (jira : Jira) (issueID : String) (depth : Nat) (data : M)
    (h : storeIssue jira issueID depth = .ok (some data)) (k : String) (hk : k ∉ syncFields) :
    M.get data k = none := by
  have hclone : ¬ k = "clone" := by
    intro e; apply hk; simp [syncFields, e]
  rw [storeIssue] at h
  split at h
  · cases h
  · split at h
    · cases h
    · next issue _ =>
      simp only at h
      split at h
      · cases h
      · split at h
        · split at h
          · cases h
          · simp only [Except.ok.injEq, Option.some.injEq] at h
            subst h
            rw [M.get_set]
            simp [hclone, snapshotOf_get_absent issue depth k hk]
        · simp only [Except.ok.injEq, Option.some.injEq] at h
          subst h
          exact snapshotOf_get_absent issue depth k hk

/-- C4: when `syncIssues` upserts the key of a stored document that has
`completed: true`, the document found under the key afterwards is the old one
with the snapshot merged in by `$set`; the snapshot has no top-level
`completed` field, so `completed` is still `true` and every field outside the
sync-derived ones is unchanged. -/
theorem processIssue_keeps_completed (jira : Jira) (mongo : Mongo) (st : SyncState)
    (key : String) (d : M)
    (hd : st.collection.findById key = some d)
    (hc : M.get d "completed" = some (.bool true))
    (hup : resolvedAndUpserted jira mongo key) :
    ∃ data, storeIssue jira key 0 = .ok (some data) ∧
      M.get data "completed" = none ∧
      (processIssue jira mongo st key).collection.findById key = some (applySet d data) ∧
      M.get (applySet d data) "completed" = some (.bool true) ∧
      ∀ field, field ∉ syncFields → M.get (applySet d data) field = M.get d field := by
  obtain ⟨data, c, hs, hu, hp⟩ := processIssue_success jira mongo st key hup
  obtain ⟨_, _, _, hfind⟩ := UpdateOne_ok mongo st.collection c key data hu
  have habs : ∀ field, field ∉ syncFields → M.get data field = none :=
    fun field hf => storeIssue_get_absent jira key 0 data hs field hf
  have hcomp : M.get data "completed" = none := habs "completed" (by decide)
  refine ⟨data, hs, hcomp, ?_, ?_, ?_⟩
  · rw [hp]
    exact hfind d hd
  · rw [M.get_applySet_of_absent data d "completed" hcomp]
    exact hc
  · intro field hf
    exact M.get_applySet_of_absent data d field (habs field hf)

/-! ## Reconciliation -/

theorem ninMatches_eq (keys : List String) (d : M) :
    ninMatches keys d = !(keys.any (fun k => hasId k d)) := by
  unfold ninMatches hasId
  cases hg : M.get d "_id" with
  | none => simp
  | some v =>
    cases v with
    | str k0 =>
      simp only [Value.isStr]
      congr 1
      induction keys with
      | nil => simp
      | cons k rest ih =>
        simp only [List.contains_cons, List.any_cons, ih]
        by_cases h : k0 = k <;> simp [h]
    | bool b => simp [Value.isStr]
    | nilM => simp [Value.isStr]
    | doc m => simp [Value.isStr]

theorem DeleteMany_ok (mongo : Mongo) (c : Collection) (keys : List String)
    (h : mongo.deleteManyErr keys = none) :
    c.DeleteMany mongo keys =
      .ok (c.filter (fun d => keys.any (fun k => hasId k d)),
        (c.filter (fun d => !(keys.any (fun k => hasId k d)))).length) := by
  have hfun : ninMatches keys = fun d => !(keys.any (fun k => hasId k d)) :=
    funext (ninMatches_eq keys)
  unfold Collection.DeleteMany
  simp only [h, hfun, Bool.not_not]

theorem hasKey_filter (c : Collection) (keys : List String) (k : String) :
    HasKey (c.filter (fun d => keys.any (fun k => hasId k d))) k ↔ HasKey c k ∧ k ∈ keys := by
  constructor
  · rintro ⟨d, hd, hk⟩
    rw [List.mem_filter] at hd
    obtain ⟨hd1, hd2⟩ := hd
    rw [List.any_eq_true] at hd2
    obtain ⟨k', hk', hkd⟩ := hd2
    have : k' = k := hasId_unique hkd hk
    subst this
    exact ⟨⟨d, hd1, hk⟩, hk'⟩
  · rintro ⟨⟨d, hd, hk⟩, hmem⟩
    refine ⟨d, ?_, hk⟩
    rw [List.mem_filter]
    exact ⟨hd, List.any_eq_true.mpr ⟨k, hmem, hk⟩⟩

theorem syncIssues_of_pages (jira : Jira) (mongo : Mongo) (fuel : Nat) (c : Collection)
    (st : SyncState)
    (hp : syncPages jira mongo fuel 0 { collection := c, updatedDocuments := [], log := [] } =
      some (none, st))
    (hdel : mongo.deleteManyErr (touchedKeys st) = none) :
    syncIssues jira mongo fuel c = some (none,
      { st with
        collection := st.collection.filter (fun d => (touchedKeys st).any (fun k => hasId k d)),
        log := st.log ++ [.removed (st.collection.filter
          (fun d => !((touchedKeys st).any (fun k => hasId k d)))).length] }) := by
  unfold syncIssues
  simp only [hp]
  have := DeleteMany_ok mongo st.collection (touchedKeys st) hdel
  simp only [touchedKeys] at this
  simp only [this, touchedKeys]

theorem syncIssues_inv (jira : Jira) (mongo : Mongo) (fuel : Nat) (c : Collection)
    (st' : SyncState) (h : syncIssues jira mongo fuel c = some (none, st')) :
    ∃ st, syncPages jira mongo fuel 0 { collection := c, updatedDocuments := [], log := [] } =
        some (none, st) ∧
      mongo.deleteManyErr (touchedKeys st) = none ∧
      SyncInv jira mongo c (matchedKeys jira fuel 0) st := by
  unfold syncIssues at h
  split at h
  · cases h
  · cases h
  · next st hst =>
    refine ⟨st, hst, ?_, ?_⟩
    · unfold Collection.DeleteMany at h
      simp only [touchedKeys]
      cases hd : mongo.deleteManyErr (getMapKeys st.updatedDocuments) with
      | none => rfl
      | some err => simp [hd] at h
    · have := SyncInv.pages jira mongo c fuel 0 [] _ st none (SyncInv.init jira mongo c) hst
      simpa using this

/-- C3: when the pagination searches and the delete-many succeed, `syncIssues`
returns no error; the keys recorded during the run are exactly the keys of the
matched issues whose resolution and upsert succeeded; before the
reconciliation the stored keys are the pre-existing ones and the recorded
ones; and the reconciliation removes exactly the records whose key is not
recorded: the records left are those whose `_id` is the key of a matched issue
that was resolved and upserted, so a pre-existing key stays stored if and only
if it is such a key. -/
theorem syncIssues_deletes_exactly_untouched (jira : Jira) (mongo : Mongo) (c : Collection)
    (p fuel : Nat) (hend : PaginationEnds jira p) (hfuel : p < fuel)
    (hdel : ∀ keys, mongo.deleteManyErr keys = none) :
    ∃ st st', syncPages jira mongo fuel 0
        { collection := c, updatedDocuments := [], log := [] } = some (none, st) ∧
      syncIssues jira mongo fuel c = some (none, st') ∧
      st'.collection = st.collection.filter (fun d => (touchedKeys st).any (fun k => hasId k d)) ∧
      LogLine.removed (st.collection.filter
        (fun d => !((touchedKeys st).any (fun k => hasId k d)))).length ∈ st'.log ∧
      (∀ k, HasKey c k → (HasKey st'.collection k ↔ k ∈ touchedKeys st)) ∧
      (∀ k, k ∈ touchedKeys st ↔
        (k ∈ matchedKeys jira fuel 0 ∧ resolvedAndUpserted jira mongo k)) ∧
      (∀ k, HasKey st.collection k ↔ (HasKey c k ∨ k ∈ touchedKeys st)) ∧
      (∀ d, d ∈ st.collection →
        (d ∈ st'.collection ↔
          ∃ k, hasId k d = true ∧ k ∈ matchedKeys jira fuel 0 ∧
            resolvedAndUpserted jira mongo k)) ∧
      (∀ d, d ∈ st'.collection → d ∈ st.collection) ∧
      (∀ k, HasKey st'.collection k ↔
        (k ∈ matchedKeys jira fuel 0 ∧ resolvedAndUpserted jira mongo k)) := by
  obtain ⟨st, hst⟩ := syncPages_terminates jira mongo p hend p 0 fuel
    { collection := c, updatedDocuments := [], log := [] } (by omega) hfuel
  simp only [pageStart] at hst
  have hrun := syncIssues_of_pages jira mongo fuel c st hst (hdel _)
  have hinv := SyncInv.pages jira mongo c fuel 0 [] _ st none (SyncInv.init jira mongo c) hst
  simp only [List.nil_append] at hinv
  refine ⟨st, _, hst, hrun, rfl, by simp, ?_, hinv.touched, hinv.keys, ?_, ?_, ?_⟩
  · intro k hk
    simp only
    rw [hasKey_filter, hinv.keys k]
    constructor
    · exact fun h => h.2
    · exact fun h => ⟨Or.inr h, h⟩
  · intro d hd
    simp only
    rw [List.mem_filter, List.any_eq_true]
    constructor
    · rintro ⟨_, k, hk, hkd⟩
      exact ⟨k, hkd, (hinv.touched k).mp hk⟩
    · rintro ⟨k, hkd, hk⟩
      exact ⟨hd, k, (hinv.touched k).mpr hk, hkd⟩
  · intro d hd
    simp only at hd
    exact (List.mem_filter.mp hd).1
  · intro k
    simp only
    rw [hasKey_filter, hinv.keys k, ← hinv.touched k]
    constructor
    · exact fun h => h.2
    · exact fun h => ⟨Or.inr h, h⟩

/-- C5: in a run whose pagination and delete-many succeed and in which the
resolution of one matched issue fails, the failure is logged and the issue is
skipped, every matched issue whose resolution and upsert succeed is upserted,
recorded as touched and stored at the end, the delete-many reconciliation is
issued, and `syncIssues` returns no error. -/
theorem syncIssues_survives_failed_issue (jira : Jira) (mongo : Mongo) (c : Collection)
    (p fuel : Nat) (hend : PaginationEnds jira p) (hfuel : p < fuel)
    (hdel : ∀ keys, mongo.deleteManyErr keys = none)
    (bad : String) (hbad : bad ∈ matchedKeys jira fuel 0)
    (hfail : ∃ err, storeIssue jira bad 0 = .error err) :
    ∃ st st', syncPages jira mongo fuel 0
        { collection := c, updatedDocuments := [], log := [] } = some (none, st) ∧
      syncIssues jira mongo fuel c = some (none, st') ∧
      (∃ n, st.collection.DeleteMany mongo (getMapKeys st.updatedDocuments) =
          .ok (st'.collection, n) ∧ LogLine.removed n ∈ st'.log) ∧
      (∀ key, key ∈ matchedKeys jira fuel 0 → resolvedAndUpserted jira mongo key →
        key ∈ touchedKeys st' ∧ LogLine.upserted key ∈ st'.log ∧ HasKey st'.collection key) ∧
      bad ∉ touchedKeys st' ∧
      (∃ line, line ∈ st'.log ∧ line.key? = some bad ∧ line ≠ .upserted bad) := by
  obtain ⟨st, hst⟩ := syncPages_terminates jira mongo p hend p 0 fuel
    { collection := c, updatedDocuments := [], log := [] } (by omega) hfuel
  simp only [pageStart] at hst
  have hrun := syncIssues_of_pages jira mongo fuel c st hst (hdel _)
  have hinv := SyncInv.pages jira mongo c fuel 0 [] _ st none (SyncInv.init jira mongo c) hst
  simp only [List.nil_append] at hinv
  have hnot : ¬ resolvedAndUpserted jira mongo bad := by
    rintro ⟨data, hs, -, -⟩
    obtain ⟨err, herr⟩ := hfail
    rw [herr] at hs
    cases hs
  have hbt : bad ∉ touchedKeys st := fun h => hnot ((hinv.touched bad).mp h).2
  refine ⟨st, _, hst, hrun,
    ⟨(st.collection.filter (fun d => !((touchedKeys st).any (fun k => hasId k d)))).length,
      ?_, by simp⟩, ?_, hbt, ?_⟩
  · have := DeleteMany_ok mongo st.collection (touchedKeys st) (hdel _)
    simpa [touchedKeys] using this
  · intro key hkey hres
    have ht : key ∈ touchedKeys st := (hinv.touched key).mpr ⟨hkey, hres⟩
    refine ⟨ht, ?_, ?_⟩
    · simp only [List.mem_append, List.mem_singleton]
      exact Or.inl ((hinv.upserted key).mpr ht)
    · simp only
      rw [hasKey_filter, hinv.keys key]
      exact ⟨Or.inr ht, ht⟩
  · have hmem : bad ∈ st.log.filterMap LogLine.key? := by rw [hinv.logKeys]; exact hbad
    rw [List.mem_filterMap] at hmem
    obtain ⟨line, hl1, hl2⟩ := hmem
    refine ⟨line, ?_, hl2, ?_⟩
    · simp only [List.mem_append, List.mem_singleton]
      exact Or.inl hl1
    · intro e
      subst e
      exact hbt ((hinv.upserted bad).mp hl1)

/-- C6, amended: after a `syncIssues` run that completes without error, the
stored keys are exactly the keys of the matched issues whose resolution and
upsert succeeded during the run, and every stored record has such a key. -/
theorem syncIssues_stored_keys_are_upserted (jira : Jira) (mongo : Mongo) (fuel : Nat)
    (c : Collection) (st' : SyncState)
    (h : syncIssues jira mongo fuel c = some (none, st')) :
    (∀ k, HasKey st'.collection k ↔
      (k ∈ matchedKeys jira fuel 0 ∧ resolvedAndUpserted jira mongo k)) ∧
    (∀ d, d ∈ st'.collection → ∃ k, hasId k d = true ∧ k ∈ matchedKeys jira fuel 0) := by
  obtain ⟨st, hst, hdel, hinv⟩ := syncIssues_inv jira mongo fuel c st' h
  have hrun := syncIssues_of_pages jira mongo fuel c st hst hdel
  rw [hrun] at h
  simp only [Option.some.injEq, Prod.mk.injEq, true_and] at h
  subst h
  simp only
  constructor
  · intro k
    rw [hasKey_filter, hinv.keys k, ← hinv.touched k]
    constructor
    · exact fun h => h.2
    · exact fun h => ⟨Or.inr h, h⟩
  · intro d hd
    rw [List.mem_filter, List.any_eq_true] at hd
    obtain ⟨_, k, hk, hkd⟩ := hd
    exact ⟨k, hkd, ((hinv.touched k).mp hk).1⟩

/-! ## A concrete run -/

theorem snapshotOf_plainIssue (key : String) : snapshotOf (plainIssue key) 0 = plainSnapshot key := by
  simp [snapshotOf, plainIssue, plainSnapshot, M.set, getCustomFieldValue]

theorem exampleJira_storeIssue_A : storeIssue exampleJira "A" 0 = .ok (some (plainSnapshot "A")) := by
  have hq : ¬ cloneJql "A" = trackingJql := by decide
  rw [storeIssue, ← snapshotOf_plainIssue]
  simp [exampleJira, maxRecursionDepth, plainIssue, hq]

theorem exampleJira_storeIssue_B : storeIssue exampleJira "B" 0 = .ok (some (plainSnapshot "B")) := by
  have hq : ¬ cloneJql "B" = trackingJql := by decide
  rw [storeIssue, ← snapshotOf_plainIssue]
  simp [exampleJira, maxRecursionDepth, plainIssue, hq]

theorem exampleJira_storeIssue_X :
    storeIssue exampleJira "X" 0 = .error "error getting issue X: 404" := by
  rw [storeIssue]
  simp [exampleJira, maxRecursionDepth]

theorem exampleRun :
    syncIssues exampleJira exampleMongo 1 exampleCollection = some (none, exampleFinal) := by
  have hs : exampleJira.IssueSearch trackingJql (trackingOptions 0) = .ok ["A", "X", "B"] := by
    simp [exampleJira, trackingOptions]
  simp only [trackingOptions] at hs
  simp only [syncIssues, syncPages, hs, List.foldl, processIssue, exampleJira_storeIssue_A,
    exampleJira_storeIssue_B, exampleJira_storeIssue_X, Option.getD]
  rfl

/-! ## Text scraping of the custom field -/

theorem splitL_skip (sep : List Char) (a r cur : List Char) :
    strings.splitL sep (a ++ r) a.length cur = strings.splitL sep r 0 cur := by
  induction a with
  | nil => rfl
  | cons c a ih => simpa [strings.splitL] using ih

theorem splitL_match (s : Char) (ss r cur : List Char) :
    strings.splitL (s :: ss) ((s :: ss) ++ r) 0 cur =
      cur.reverse :: strings.splitL (s :: ss) r 0 [] := by
  have hp : (s :: ss).isPrefixOf (s :: (ss ++ r)) = true := by
    rw [List.isPrefixOf_iff_prefix]
    exact ⟨r, rfl⟩
  show strings.splitL (s :: ss) (s :: (ss ++ r)) 0 cur = _
  rw [strings.splitL]
  simp only [hp, if_true, List.length_cons, Nat.add_sub_cancel]
  rw [splitL_skip]

theorem splitL_step (sep : List Char) (c : Char) (cs cur : List Char)
    (h : sep.isPrefixOf (c :: cs) = false) :
    strings.splitL sep (c :: cs) 0 cur = strings.splitL sep cs 0 (c :: cur) := by
  rw [strings.splitL]
  simp [h]

theorem mapSep_not_prefix (y r : List Char) (hy : '[' ∉ y) (hne : y ≠ []) :
    mapSep.isPrefixOf (y ++ mapSep ++ r) = false := by
  match y, hy, hne with
  | [a], hy, _ =>
    simp only [mapSep, List.isPrefixOf, List.cons_append, List.nil_append]
    simp
  | [a, b], hy, _ =>
    simp only [mapSep, List.isPrefixOf, List.cons_append, List.nil_append]
    simp
  | [a, b, c], hy, _ =>
    simp only [mapSep, List.isPrefixOf, List.cons_append, List.nil_append]
    simp
  | a :: b :: c :: d :: rest, hy, _ =>
    have hd : d ≠ '[' := by
      intro e; apply hy; simp [e]
    simp only [mapSep, List.isPrefixOf, List.cons_append]
    simp [Ne.symm hd]

theorem mapSep_not_prefix_plain (y : List Char) (hy : '[' ∉ y) :
    mapSep.isPrefixOf y = false := by
  match y, hy with
  | [], _ => simp [mapSep, List.isPrefixOf]
  | [a], _ => simp [mapSep, List.isPrefixOf]
  | [a, b], _ => simp [mapSep, List.isPrefixOf]
  | [a, b, c], _ => simp [mapSep, List.isPrefixOf]
  | a :: b :: c :: d :: rest, hy =>
    have hd : d ≠ '[' := by
      intro e; apply hy; simp [e]
    simp only [mapSep, List.isPrefixOf]
    simp [Ne.symm hd]

theorem splitL_mapSep_append (x r cur : List Char) (hx : '[' ∉ x) :
    strings.splitL mapSep (x ++ mapSep ++ r) 0 cur =
      (cur.reverse ++ x) :: strings.splitL mapSep r 0 [] := by
  induction x generalizing cur with
  | nil =>
    simp only [List.nil_append, List.append_nil]
    exact splitL_match 'm' ['a', 'p', '['] r cur
  | cons c x ih =>
    have hx' : '[' ∉ x := fun h => hx (List.mem_cons_of_mem _ h)
    have hp := mapSep_not_prefix (c :: x) r hx (by simp)
    simp only [List.cons_append, List.append_assoc] at hp ⊢
    rw [splitL_step _ _ _ _ hp]
    have := ih (c :: cur) hx'
    simp only [List.append_assoc] at this
    rw [this]
    simp

theorem splitL_mapSep_plain (x cur : List Char) (hx : '[' ∉ x) :
    strings.splitL mapSep x 0 cur = [cur.reverse ++ x] := by
  induction x generalizing cur with
  | nil => simp [strings.splitL]
  | cons c x ih =>
    have hx' : '[' ∉ x := fun h => hx (List.mem_cons_of_mem _ h)
    rw [splitL_step _ _ _ _ (mapSep_not_prefix_plain (c :: x) hx), ih (c :: cur) hx']
    simp

theorem splitL_space_append (a b cur : List Char) :
    strings.splitL [' '] (a ++ ' ' :: b) 0 cur =
      strings.splitL [' '] a 0 cur ++ strings.splitL [' '] b 0 [] := by
  induction a generalizing cur with
  | nil =>
    simp only [List.nil_append]
    rw [strings.splitL]
    simp [List.isPrefixOf, strings.splitL]
  | cons c a ih =>
    by_cases hc : c = ' '
    · subst hc
      simp only [List.cons_append]
      rw [strings.splitL]
      conv_rhs => rw [strings.splitL]
      simp [List.isPrefixOf, ih]
    · have h1 : [' '].isPrefixOf (c :: (a ++ ' ' :: b)) = false := by
        simp [List.isPrefixOf, Ne.symm hc]
      have h2 : [' '].isPrefixOf (c :: a) = false := by
        simp [List.isPrefixOf, Ne.symm hc]
      simp only [List.cons_append]
      rw [splitL_step _ _ _ _ h1, splitL_step _ _ _ _ h2, ih]

theorem splitL_space_plain (x cur : List Char) (hx : ' ' ∉ x) :
    strings.splitL [' '] x 0 cur = [cur.reverse ++ x] := by
  induction x generalizing cur with
  | nil => simp [strings.splitL]
  | cons c x ih =>
    have hx' : ' ' ∉ x := fun h => hx (List.mem_cons_of_mem _ h)
    have hc : c ≠ ' ' := by
      intro e; apply hx; simp [e]
    have h1 : [' '].isPrefixOf (c :: x) = false := by
      simp [List.isPrefixOf, Ne.symm hc]
    rw [splitL_step _ _ _ _ h1, ih (c :: cur) hx']
    simp

theorem splitL_space_infix (x : List Char) :
    ∀ (cur : List Char) (tok : List Char), tok ∈ strings.splitL [' '] x 0 cur →
      tok <:+: cur.reverse ++ x := by
  induction x with
  | nil =>
    intro cur tok h
    simp only [strings.splitL, List.mem_singleton] at h
    subst h
    simp
  | cons c x ih =>
    intro cur tok h
    by_cases hc : c = ' '
    · subst hc
      rw [strings.splitL] at h
      simp only [List.isPrefixOf, beq_self_eq_true, Bool.and_self, if_true, List.length_singleton,
        Nat.sub_self, List.mem_cons] at h
      rcases h with h | h
      · subst h
        exact ⟨[], ' ' :: x, by simp⟩
      · have := ih [] tok h
        simp only [List.reverse_nil, List.nil_append] at this
        exact this.trans ⟨cur.reverse ++ [' '], [], by simp⟩
    · have h1 : [' '].isPrefixOf (c :: x) = false := by
        simp [List.isPrefixOf, Ne.symm hc]
      rw [splitL_step _ _ _ _ h1] at h
      have := ih (c :: cur) tok h
      simpa using this

theorem containsL_iff (sub s : List Char) : strings.containsL sub s = true ↔ sub <:+: s := by
  induction s with
  | nil =>
    simp only [strings.containsL, List.isPrefixOf_iff_prefix, List.prefix_nil, List.infix_nil]
  | cons c s ih =>
    simp only [strings.containsL, Bool.or_eq_true, List.isPrefixOf_iff_prefix, ih,
      List.infix_cons_iff]

theorem scanKvs_eq (values kvs : List String) :
    scanKvs values kvs = values ++ kvs.filterMap kvValue := by
  unfold scanKvs
  induction kvs generalizing values with
  | nil => simp
  | cons kv rest ih =>
    simp only [List.foldl_cons]
    rw [ih]
    by_cases h : strings.Contains kv "name" = true
    · simp [List.filterMap_cons, kvValue, h]
    · simp [List.filterMap_cons, kvValue, h]

theorem scanMaps_eq (values maps : List String) :
    scanMaps values maps =
      values ++ maps.flatMap (fun m => namesIn (strings.TrimSuffix m "]")) := by
  unfold scanMaps
  induction maps generalizing values with
  | nil => simp
  | cons m rest ih =>
    simp only [List.foldl_cons]
    rw [ih, scanKvs_eq]
    simp [namesIn, List.flatMap_cons]

theorem Split_space (m : String) :
    strings.Split m " " = (strings.splitL [' '] m.data 0 []).map (fun p => ⟨p⟩) := by
  unfold strings.Split
  have h : " ".data = [' '] := rfl
  simp [h]

theorem namesIn_append_space (a b : String) :
    namesIn (a ++ " " ++ b) = namesIn a ++ namesIn b := by
  unfold namesIn
  rw [Split_space, Split_space, Split_space]
  have h : (a ++ " " ++ b).data = a.data ++ ' ' :: b.data := by
    simp [String.data_append]
  rw [h, splitL_space_append]
  simp

theorem namesIn_of_not_infix (t : String) (h : ¬ "name".data <:+: t.data) : namesIn t = [] := by
  unfold namesIn
  rw [Split_space, List.filterMap_eq_nil_iff]
  intro kv hkv
  rw [List.mem_map] at hkv
  obtain ⟨tok, htok, rfl⟩ := hkv
  have hin := splitL_space_infix t.data [] tok htok
  simp only [List.reverse_nil, List.nil_append] at hin
  unfold kvValue
  have : strings.Contains ⟨tok⟩ "name" = false := by
    cases hc : strings.Contains ⟨tok⟩ "name" with
    | false => rfl
    | true =>
      unfold strings.Contains at hc
      rw [containsL_iff] at hc
      exact absurd (hc.trans hin) h
  simp [this]

theorem dropWhile_of_none {α : Type} (p : α → Bool) (l : List α) (h : ∀ c ∈ l, p c = false) :
    l.dropWhile p = l := by
  cases l with
  | nil => rfl
  | cons c l => simp [List.dropWhile, h c (List.mem_cons_self _ _)]

theorem TrimSpace_of_no_space (n : String) (h : ∀ c ∈ n.data, strings.isSpace c = false) :
    strings.TrimSpace n = n := by
  unfold strings.TrimSpace
  rw [dropWhile_of_none _ _ h, dropWhile_of_none _ _ (fun c hc => h c (List.mem_reverse.mp hc))]
  simp

theorem namesIn_name (n : String) (h : ∀ c ∈ n.data, strings.isSpace c = false) :
    namesIn ("name:" ++ n) = [n] := by
  have hsp : ' ' ∉ ("name:" ++ n).data := by
    simp only [String.data_append, List.mem_append, not_or]
    refine ⟨by decide, ?_⟩
    intro hmem
    have := h ' ' hmem
    revert this
    decide
  unfold namesIn
  rw [Split_space, splitL_space_plain _ _ hsp]
  show List.filterMap kvValue ["name:" ++ n] = [n]
  have hc : strings.Contains ("name:" ++ n) "name" = true := by
    unfold strings.Contains
    rw [containsL_iff]
    exact ⟨[], ':' :: n.data, by simp [String.data_append]⟩
  have htp : strings.TrimPrefix ("name:" ++ n) "name:" = n := by
    unfold strings.TrimPrefix
    have hp : "name:".data.isPrefixOf ("name:" ++ n).data = true := by
      rw [List.isPrefixOf_iff_prefix]
      exact ⟨n.data, by simp [String.data_append]⟩
    simp only [hp, if_true, String.data_append]
    have : ("name:".data ++ n.data).drop "name:".data.length = n.data := List.drop_left _ _
    simp [this]
  simp only [List.filterMap_cons, List.filterMap_nil, kvValue, hc, htp, if_true,
    TrimSpace_of_no_space n h]

theorem stringGreater_iff (a b : String) : stringGreater a b = true ↔ b < a := by
  unfold stringGreater
  rw [decide_eq_true_iff, String.lt_iff_toList_lt]
  rfl

theorem sortByKey_of_chain (l : List (String × String))
    (h : List.Chain' (fun a b => a.1 < b.1) l) : sortByKey l = l := by
  induction l with
  | nil => rfl
  | cons kv rest ih =>
    have hrest := ih (List.Chain'.tail h)
    simp only [sortByKey, hrest]
    cases rest with
    | nil => rfl
    | cons kv' r =>
      have hlt : kv.1 < kv'.1 := (List.chain'_cons.mp h).1
      have : stringGreater kv.1 kv'.1 = false := by
        cases hg : stringGreater kv.1 kv'.1 with
        | false => rfl
        | true => exact absurd ((stringGreater_iff _ _).mp hg) (lt_asymm hlt)
      simp [insertByKey, this]

theorem sortSliceDesc_eq (l : List String) :
    sortSliceDesc l = l.insertionSort (fun a b => a ≥ b) := by
  induction l with
  | nil => rfl
  | cons a rest ih =>
    simp only [sortSliceDesc, List.insertionSort, ih]
    generalize List.insertionSort (fun a b => a ≥ b) rest = s
    induction s with
    | nil => rfl
    | cons b s ihs =>
      simp only [insertDesc, List.orderedInsert]
      by_cases hg : stringGreater b a = true
      · have : ¬ a ≥ b := not_le.mpr ((stringGreater_iff _ _).mp hg)
        simp [hg, this, ihs]
      · have : a ≥ b := not_lt.mp (fun h => hg ((stringGreater_iff _ _).mpr h))
        simp [hg, this]

theorem sortSliceDesc_perm (l : List String) : (sortSliceDesc l).Perm l := by
  rw [sortSliceDesc_eq]
  exact List.perm_insertionSort _ l

theorem sortSliceDesc_sorted (l : List String) : (sortSliceDesc l).Sorted (fun a b => a ≥ b) := by
  rw [sortSliceDesc_eq]
  exact List.sorted_insertionSort _ l

theorem sprintVFields_eq (fields : List (String × JValue)) :
    sprintVFields fields = fields.map (fun f => (f.1, f.2.sprintV)) := by
  induction fields with
  | nil => rfl
  | cons f rest ih =>
    obtain ⟨k, v⟩ := f
    simp [sprintVFields, ih]

theorem sprintVList_eq (xs : List JValue) : sprintVList xs = xs.map JValue.sprintV := by
  induction xs with
  | nil => rfl
  | cons x rest ih => simp [sprintVList, ih]

theorem NameEntry.sprintV_eq (e : NameEntry) (h : e.Scrapable) :
    e.toJValue.sprintV = "map[" ++ e.body ++ "]" := by
  have hchain : List.Chain' (fun a b : String × String => a.1 < b.1)
      (e.fields.map (fun f => (f.1, f.2.sprintV))) := by
    rw [List.chain'_map]
    exact h.keyOrder
  simp only [NameEntry.toJValue, JValue.sprintV, sprintVFields_eq, sortByKey_of_chain _ hchain,
    NameEntry.body, List.map_map]
  rfl

theorem Join_singleton (a sep : String) : strings.Join [a] sep = a := rfl

theorem Join_cons_cons (a b : String) (rest : List String) (sep : String) :
    strings.Join (a :: b :: rest) sep = a ++ sep ++ strings.Join (b :: rest) sep := by
  apply String.ext
  simp [strings.Join, strings.joinL, String.data_append]

theorem Join_append_last (xs : List String) (y z sep : String) :
    strings.Join (xs ++ [y]) sep ++ z = strings.Join (xs ++ [y ++ z]) sep := by
  induction xs with
  | nil => simp [Join_singleton]
  | cons a rest ih =>
    cases rest with
    | nil =>
      simp only [List.cons_append, List.nil_append, Join_cons_cons, Join_singleton]
      apply String.ext
      simp [String.data_append]
    | cons b rest' =>
      simp only [List.cons_append, Join_cons_cons] at ih ⊢
      rw [← ih]
      apply String.ext
      simp [String.data_append]

theorem namesIn_empty : namesIn "" = [] := by decide

theorem namesIn_Join (ts : List String) (hne : ts ≠ []) :
    namesIn (strings.Join ts " ") = ts.flatMap namesIn := by
  induction ts with
  | nil => exact absurd rfl hne
  | cons a rest ih =>
    cases rest with
    | nil => simp [Join_singleton]
    | cons b rest' =>
      rw [Join_cons_cons, namesIn_append_space, ih (by simp)]
      simp [List.flatMap_cons]

theorem not_infix_append_char (sub t : List Char) (c : Char) (hc : c ∉ sub) (hsub : sub ≠ [])
    (h : ¬ sub <:+: t) : ¬ sub <:+: t ++ [c] := by
  rintro ⟨p, s, hps⟩
  rcases List.eq_nil_or_concat s with hs | ⟨s', c', hs⟩
  · subst hs
    simp only [List.append_nil] at hps
    obtain ⟨sub', x, hx⟩ : ∃ sub' x, sub = sub' ++ [x] := by
      rcases List.eq_nil_or_concat sub with h0 | ⟨sub', x, h0⟩
      · exact absurd h0 hsub
      · exact ⟨sub', x, by simpa using h0⟩
    subst hx
    rw [← List.append_assoc] at hps
    have := List.append_inj' hps rfl
    have hxc : x = c := by simpa using this.2
    apply hc
    simp [hxc]
  · subst hs
    have h1 : (p ++ sub ++ s') ++ [c'] = t ++ [c] := by simpa using hps
    have := List.append_inj' h1 rfl
    exact h ⟨p, s', this.1⟩

theorem namesIn_field (f : String × JValue)
    (h : strings.Contains (fieldText f) "name" = false) : namesIn (fieldText f) = [] := by
  apply namesIn_of_not_infix
  intro hin
  have := (containsL_iff "name".data (fieldText f).data).mpr hin
  unfold strings.Contains at h
  rw [h] at this
  cases this

theorem namesIn_field_bracket (f : String × JValue)
    (h : strings.Contains (fieldText f) "name" = false) :
    namesIn (fieldText f ++ "]") = [] := by
  apply namesIn_of_not_infix
  have h0 : ¬ "name".data <:+: (fieldText f).data := by
    intro hin
    have := (containsL_iff "name".data (fieldText f).data).mpr hin
    unfold strings.Contains at h
    rw [h] at this
    cases this
  have := not_infix_append_char "name".data (fieldText f).data ']' (by decide) (by decide) h0
  simpa [String.data_append] using this

theorem fieldText_name (n : String) : fieldText ("name", .str n) = "name:" ++ n := by
  apply String.ext
  simp [fieldText, JValue.sprintV, String.data_append]

theorem flatMap_namesIn_fields (fs : List (String × JValue))
    (h : ∀ f, f ∈ fs → strings.Contains (fieldText f) "name" = false) :
    (fs.map fieldText).flatMap namesIn = [] := by
  induction fs with
  | nil => rfl
  | cons f rest ih =>
    simp only [List.map_cons, List.flatMap_cons]
    rw [namesIn_field f (h f (List.mem_cons_self _ _)),
      ih (fun g hg => h g (List.mem_cons_of_mem _ hg))]
    rfl

theorem NameEntry.namesIn_body (e : NameEntry) (h : e.Scrapable) : namesIn e.body = [e.name] := by
  unfold NameEntry.body NameEntry.fields
  rw [namesIn_Join _ (by simp)]
  simp only [List.map_append, List.map_cons, List.map_nil, List.flatMap_append,
    List.flatMap_cons, List.flatMap_nil, List.append_nil]
  rw [flatMap_namesIn_fields e.pre (fun f hf => (h.othersClean f (List.mem_append_left _ hf)).2),
    flatMap_namesIn_fields e.post (fun f hf => (h.othersClean f (List.mem_append_right _ hf)).2),
    fieldText_name, namesIn_name e.name (fun c hc => (h.nameClean c hc).1)]
  rfl

theorem NameEntry.namesIn_body_bracket (e : NameEntry) (h : e.Scrapable) :
    namesIn (e.body ++ "] ") = [e.name] := by
  obtain ⟨post0, pl, hpost⟩ : ∃ post0 pl, e.post = post0 ++ [pl] := by
    rcases List.eq_nil_or_concat e.post with h0 | ⟨post0, pl, h0⟩
    · exact absurd h0 h.notLast
    · exact ⟨post0, pl, by simpa using h0⟩
  have hsplit : e.body ++ "] " = (e.body ++ "]") ++ " " ++ "" := by
    apply String.ext
    simp [String.data_append]
  rw [hsplit, namesIn_append_space, namesIn_empty, List.append_nil]
  have hbody : e.body ++ "]" =
      strings.Join ((e.pre.map fieldText ++ ["name:" ++ e.name] ++ post0.map fieldText) ++
        [fieldText pl ++ "]"]) " " := by
    unfold NameEntry.body NameEntry.fields
    rw [hpost]
    simp only [List.map_append, List.map_cons, List.map_nil, fieldText_name]
    rw [← Join_append_last]
    simp
  rw [hbody, namesIn_Join _ (by simp)]
  simp only [List.flatMap_append, List.flatMap_cons, List.flatMap_nil, List.append_nil]
  have hpre := flatMap_namesIn_fields e.pre
    (fun f hf => (h.othersClean f (List.mem_append_left _ hf)).2)
  have hpost0 := flatMap_namesIn_fields post0
    (fun f hf => (h.othersClean f (List.mem_append_right _ (by rw [hpost]; simp [hf]))).2)
  have hpl := namesIn_field_bracket pl
    (h.othersClean pl (List.mem_append_right _ (by rw [hpost]; simp))).2
  rw [hpre, hpost0, hpl, namesIn_name e.name (fun c hc => (h.nameClean c hc).1)]
  rfl

theorem not_mem_Join (c : Char) (sep : String) (hsep : c ∉ sep.data) (ts : List String)
    (h : ∀ t, t ∈ ts → c ∉ t.data) : c ∉ (strings.Join ts sep).data := by
  induction ts with
  | nil => simp [strings.Join, strings.joinL]
  | cons a rest ih =>
    cases rest with
    | nil =>
      rw [Join_singleton]
      exact h a (List.mem_cons_self _ _)
    | cons b rest' =>
      rw [Join_cons_cons]
      simp only [String.data_append, List.mem_append, not_or]
      exact ⟨⟨h a (List.mem_cons_self _ _), hsep⟩,
        ih (fun t ht => h t (List.mem_cons_of_mem _ ht))⟩

theorem NameEntry.body_no_bracket (e : NameEntry) (h : e.Scrapable) : '[' ∉ e.body.data := by
  unfold NameEntry.body
  apply not_mem_Join _ _ (by decide)
  intro t ht
  rw [List.mem_map] at ht
  obtain ⟨f, hf, rfl⟩ := ht
  simp only [NameEntry.fields, List.mem_append, List.mem_singleton] at hf
  rcases hf with (hf | hf) | hf
  · exact (h.othersClean f (List.mem_append_left _ hf)).1
  · subst hf
    rw [fieldText_name]
    simp only [String.data_append, List.mem_append, not_or]
    exact ⟨by decide, fun hc => (h.nameClean _ hc).2 rfl⟩
  · exact (h.othersClean f (List.mem_append_right _ hf)).1

theorem splitL_entries (es : List NameEntry) (hs : ∀ e, e ∈ es → e.Scrapable) (hne : es ≠ []) :
    ∀ (x cur : List Char), '[' ∉ x →
      strings.splitL mapSep (x ++ (strings.Join (es.map NameEntry.text) " ").data) 0 cur =
        (cur.reverse ++ x) :: (piecesOf es).map String.data := by
  induction es with
  | nil => exact absurd rfl hne
  | cons e rest ih =>
    intro x cur hx
    have hb := NameEntry.body_no_bracket e (hs e (List.mem_cons_self _ _))
    cases rest with
    | nil =>
      have hd : (strings.Join ([e].map NameEntry.text) " ").data = mapSep ++ (e.body.data ++ [']']) := by
        simp [Join_singleton, NameEntry.text, String.data_append, mapSep]
      rw [hd, ← List.append_assoc, splitL_mapSep_append x _ cur hx,
        splitL_mapSep_plain _ _ (by simp [hb])]
      simp [piecesOf, String.data_append]
    | cons e' rest' =>
      have hd : (strings.Join ((e :: e' :: rest').map NameEntry.text) " ").data =
          mapSep ++ ((e.body.data ++ [']', ' ']) ++
            (strings.Join ((e' :: rest').map NameEntry.text) " ").data) := by
        simp only [List.map_cons, Join_cons_cons]
        simp [NameEntry.text, String.data_append, mapSep]
      rw [hd, ← List.append_assoc, splitL_mapSep_append x _ cur hx]
      have := ih (fun g hg => hs g (List.mem_cons_of_mem _ hg)) (by simp)
        (e.body.data ++ [']', ' ']) [] (by simp [hb])
      rw [this]
      simp [piecesOf, String.data_append]

theorem Split_mapSep (s : String) :
    strings.Split s "map[" = (strings.splitL mapSep s.data 0 []).map (fun p => ⟨p⟩) := by
  unfold strings.Split
  have h : "map[".data = mapSep := rfl
  simp [h, mapSep]

theorem TrimPrefix_append (p s : String) : strings.TrimPrefix (p ++ s) p = s := by
  unfold strings.TrimPrefix
  have hp : p.data.isPrefixOf (p ++ s).data = true := by
    rw [List.isPrefixOf_iff_prefix]
    exact ⟨s.data, by simp [String.data_append]⟩
  rw [if_pos hp]
  simp only [String.data_append, List.drop_left]

theorem TrimSuffix_append (s q : String) : strings.TrimSuffix (s ++ q) q = s := by
  unfold strings.TrimSuffix
  have hq : q.data.isSuffixOf (s ++ q).data = true := by
    rw [List.isSuffixOf_iff_suffix]
    exact ⟨s.data, by simp [String.data_append]⟩
  rw [if_pos hq]
  simp only [String.data_append, List.length_append, Nat.add_sub_cancel, List.take_left]

theorem TrimSuffix_bracket_space (s : String) : strings.TrimSuffix (s ++ "] ") "]" = s ++ "] " := by
  unfold strings.TrimSuffix
  have hq : "]".data.isSuffixOf (s ++ "] ").data = false := by
    cases hc : "]".data.isSuffixOf (s ++ "] ").data with
    | false => rfl
    | true =>
      rw [List.isSuffixOf_iff_suffix] at hc
      obtain ⟨t, ht⟩ := hc
      have h1 : t ++ [']'] = (s.data ++ [']']) ++ [' '] := by
        simpa [String.data_append] using ht
      have := (List.append_inj' h1 rfl).2
      simp at this
  rw [if_neg (by rw [hq]; simp)]

theorem flatMap_pieces (es : List NameEntry) (hs : ∀ e, e ∈ es → e.Scrapable) :
    (piecesOf es).flatMap (fun m => namesIn (strings.TrimSuffix m "]")) =
      es.map NameEntry.name := by
  induction es with
  | nil => rfl
  | cons e rest ih =>
    have he := hs e (List.mem_cons_self _ _)
    cases rest with
    | nil =>
      simp only [piecesOf, List.flatMap_cons, List.flatMap_nil, List.append_nil, List.map_cons,
        List.map_nil]
      rw [TrimSuffix_append, NameEntry.namesIn_body e he]
    | cons e' rest' =>
      simp only [piecesOf, List.flatMap_cons, List.map_cons]
      rw [TrimSuffix_bracket_space, NameEntry.namesIn_body_bracket e he]
      have := ih (fun g hg => hs g (List.mem_cons_of_mem _ hg))
      simp only [List.map_cons] at this
      rw [this]
      rfl

theorem scanMaps_entries (es : List NameEntry) (hs : ∀ e, e ∈ es → e.Scrapable) :
    scanMaps [] (strings.Split (strings.Join (es.map NameEntry.text) " ") "map[") =
      es.map NameEntry.name := by
  rw [scanMaps_eq, Split_mapSep]
  cases hes : es with
  | nil => decide
  | cons e rest =>
    rw [← hes]
    have hne : es ≠ [] := by rw [hes]; simp
    have := splitL_entries es hs hne [] [] (by simp)
    simp only [List.nil_append, List.reverse_nil] at this
    rw [this]
    simp only [List.map_cons, List.map_map, List.flatMap_cons, List.nil_append]
    have hempty : namesIn (strings.TrimSuffix ⟨[]⟩ "]") = [] := by decide
    rw [hempty, List.nil_append]
    have hid : (List.map ((fun p => (⟨p⟩ : String)) ∘ String.data) (piecesOf es)) = piecesOf es := by
      simp [Function.comp_def]
    rw [hid]
    exact flatMap_pieces es hs

/-- C7, amended: for an issue whose custom field is a list of `k ≥ 0` entries,
each an object whose `name` has no white space and no `[` and is not its last
key, and whose other fields print without `[` and without the text `name`
(or whose field is absent, `k = 0`), `getCustomFieldValue` returns exactly the
names, sorted in descending lexicographic order and joined with `", "`. -/
theorem getCustomFieldValue_scrapable_names (issue : Issue) (customFieldID : String)
    (es : List NameEntry) (hf : fieldHolds issue customFieldID es)
    (hs : ∀ e, e ∈ es → e.Scrapable) :
    ∃ sorted : List String, sorted.Perm (es.map NameEntry.name) ∧
      sorted.Sorted (fun a b => a ≥ b) ∧
      getCustomFieldValue issue customFieldID = strings.Join sorted ", " := by
  refine ⟨sortSliceDesc (es.map NameEntry.name), sortSliceDesc_perm _, sortSliceDesc_sorted _, ?_⟩
  rcases hf with ⟨unknowns, hu, hv⟩ | ⟨hes, hu | ⟨unknowns, hu, hv⟩⟩
  · unfold getCustomFieldValue
    simp only [hu, hv]
    have htext : (JValue.arr (es.map NameEntry.toJValue)).sprintV =
        "[" ++ (strings.Join (es.map NameEntry.text) " " ++ "]") := by
      have hl : (es.map NameEntry.toJValue).map JValue.sprintV = es.map NameEntry.text := by
        rw [List.map_map]
        apply List.map_congr_left
        intro e he
        exact NameEntry.sprintV_eq e (hs e he)
      simp only [JValue.sprintV, sprintVList_eq, hl]
      apply String.ext
      simp [String.data_append]
    rw [htext, TrimPrefix_append, TrimSuffix_append, scanMaps_entries es hs]
  · subst hes
    unfold getCustomFieldValue
    simp only [hu]
    decide
  · subst hes
    unfold getCustomFieldValue
    simp only [hu, hv]
    decide

theorem twoVersions_scrapable : ∀ e, e ∈ twoVersions → e.Scrapable := by
  intro e he
  simp only [twoVersions, List.mem_cons, List.mem_singleton, List.not_mem_nil, or_false] at he
  rcases he with rfl | rfl
  · refine ⟨?_, by simp, by decide, by decide⟩
    simp only [NameEntry.fields, List.cons_append, List.nil_append, List.chain'_cons,
      List.chain'_singleton, and_true]
    exact ⟨String.lt_iff_toList_lt.mpr (by decide), String.lt_iff_toList_lt.mpr (by decide)⟩
  · refine ⟨?_, by simp, by decide, by decide⟩
    simp only [NameEntry.fields, List.cons_append, List.nil_append, List.chain'_cons,
      List.chain'_singleton, and_true]
    exact ⟨String.lt_iff_toList_lt.mpr (by decide), String.lt_iff_toList_lt.mpr (by decide)⟩

theorem getCustomFieldValue_scrapable_names_witness :
    getCustomFieldValue (issueWithTargetVersion (.arr (twoVersions.map NameEntry.toJValue)))
        "customfield_12319940" = "4.19.0, 4.18.0" ∧
    ∃ sorted : List String, sorted.Perm (twoVersions.map NameEntry.name) ∧
      sorted.Sorted (fun a b => a ≥ b) ∧
      getCustomFieldValue (issueWithTargetVersion (.arr (twoVersions.map NameEntry.toJValue)))
        "customfield_12319940" = strings.Join sorted ", " :=
  ⟨by decide,
   getCustomFieldValue_scrapable_names
    (issueWithTargetVersion (.arr (twoVersions.map NameEntry.toJValue))) "customfield_12319940"
    twoVersions (Or.inl ⟨_, rfl, rfl⟩) twoVersions_scrapable⟩

/-- C7 as stated fails: a single entry named `4.19.0 GA` yields `4.19.0`, not
the name. -/
theorem getCustomFieldValue_name_with_space :
    getCustomFieldValue
      (issueWithTargetVersion (.arr [.obj [("id", .str "1"), ("name", .str "4.19.0 GA"),
        ("self", .str "https://tracker/version/1")]]))
      "customfield_12319940" = "4.19.0" ∧
    "4.19.0" ≠ strings.Join (sortSliceDesc ["4.19.0 GA"]) ", " := by
  decide

/-! ## The statements on concrete inputs -/

theorem RoundTrip_returns_first_non429_or_last_witness :
    RoundTrip configuredTransport twoRetriesNet =
      ⟨some okResponse, none, 3, [1 * Second, 2 * Second]⟩ ∧
    ∃ (j : Nat) (r : Response), (j : Int) ≤ configuredTransport.maxRetries ∧
      twoRetriesNet.transport j = .ok r ∧
      (∀ i, i < j → ∃ r', twoRetriesNet.transport i = .ok r' ∧ r'.StatusCode = 429) ∧
      (r.StatusCode ≠ 429 ∨ (j : Int) = configuredTransport.maxRetries) ∧
      (RoundTrip configuredTransport twoRetriesNet).resp = some r ∧
      (RoundTrip configuredTransport twoRetriesNet).err = none ∧
      (RoundTrip configuredTransport twoRetriesNet).attempts = j + 1 ∧
      ((RoundTrip configuredTransport twoRetriesNet).attempts : Int) ≤
        configuredTransport.maxRetries + 1 := by
  refine ⟨?_, RoundTrip_returns_first_non429_or_last configuredTransport twoRetriesNet
    (by decide) (fun i _ => ?_) (fun _ => rfl)⟩
  · have h1 : retryAfterOf rateLimitedPlain = 0 := by decide
    have h2 : rateLimitedPlain.StatusCode = 429 := rfl
    have h3 : okResponse.StatusCode = 200 := rfl
    have h4 : wrapInt64 (1 * Second * 2) = 2 * Second := by decide
    unfold RoundTrip
    rw [RoundTrip.loop]
    simp [configuredTransport, twoRetriesNet, h1, h2, sleepDurationOf]
    rw [RoundTrip.loop]
    simp [h1, h2, sleepDurationOf]
    rw [RoundTrip.loop]
    simp [h3]
    decide
  · unfold twoRetriesNet
    simp only
    split
    · exact ⟨_, rfl⟩
    · exact ⟨_, rfl⟩

theorem cycleJira_linked (i : Nat) : ClonesLinked cycleJira cycleKeys i := by
  refine ⟨plainIssue (cycleKeys i), rfl, [], ?_⟩
  have hB : ¬ cloneJql "B" = cloneJql "A" := by decide
  rcases Nat.mod_two_eq_zero_or_one i with h | h
  · have h1 : cycleKeys i = "A" := by simp [cycleKeys, h]
    have h2 : cycleKeys (i + 1) = "B" := by
      have : (i + 1) % 2 = 1 := by omega
      simp [cycleKeys, this]
    simp [h1, h2, cycleJira, plainIssue]
  · have h1 : cycleKeys i = "B" := by simp [cycleKeys, h]
    have h2 : cycleKeys (i + 1) = "A" := by
      have : (i + 1) % 2 = 0 := by omega
      simp [cycleKeys, this]
    simp [h1, h2, cycleJira, plainIssue, hB]

theorem storeIssue_nests_min_chain_six_witness :
    ∃ snap, storeIssue cycleJira "A" 0 = .ok (some snap) ∧ cloneLevelsM snap = 6 :=
  storeIssue_nests_min_chain_six cycleJira cycleKeys none cycleJira_linked

/-- C8 fails on the code: resolving `A` at depth 6 when the link search finds
`B` stores the nil map that the depth-7 call returns under the key `clone`,
so the key is present without a nested snapshot. -/
theorem storeIssue_attaches_nil_clone :
    storeIssue cycleJira "A" 6 =
      .ok (some [("_id", .str "A"), ("status", .str "New"), ("target_version", .str ""),
        ("clone", .nilM)]) ∧
    storeIssue cycleJira "B" 7 = .ok none := by
  constructor
  · rw [storeIssue]
    simp [maxRecursionDepth, cycleJira, snapshotOf, plainIssue, M.set, getCustomFieldValue]
    rw [storeIssue]
    simp [maxRecursionDepth, Value.ofM]
  · rw [storeIssue]
    simp [maxRecursionDepth]

theorem examplePagination : PaginationEnds exampleJira 0 := by
  refine ⟨fun i hi => absurd hi (Nat.not_lt_zero i), ["A", "X", "B"], ?_, by decide⟩
  simp [pageStart, exampleJira, trackingOptions]

theorem exampleMatched : matchedKeys exampleJira 1 0 = ["A", "X", "B"] := by
  simp [matchedKeys, exampleJira, trackingOptions]

theorem example_resolved_A : resolvedAndUpserted exampleJira exampleMongo "A" :=
  ⟨plainSnapshot "A", exampleJira_storeIssue_A, rfl, by decide⟩

theorem syncIssues_deletes_exactly_untouched_witness :
    syncIssues exampleJira exampleMongo 1 exampleCollection = some (none, exampleFinal) ∧
    HasKey exampleFinal.collection "A" ∧ HasKey exampleFinal.collection "B" ∧
    ¬ HasKey exampleFinal.collection "C" ∧
    ∃ st st', syncPages exampleJira exampleMongo 1 0
        { collection := exampleCollection, updatedDocuments := [], log := [] } = some (none, st) ∧
      syncIssues exampleJira exampleMongo 1 exampleCollection = some (none, st') ∧
      st'.collection = st.collection.filter (fun d => (touchedKeys st).any (fun k => hasId k d)) ∧
      LogLine.removed (st.collection.filter
        (fun d => !((touchedKeys st).any (fun k => hasId k d)))).length ∈ st'.log ∧
      (∀ k, HasKey exampleCollection k → (HasKey st'.collection k ↔ k ∈ touchedKeys st)) ∧
      (∀ k, k ∈ touchedKeys st ↔
        (k ∈ matchedKeys exampleJira 1 0 ∧ resolvedAndUpserted exampleJira exampleMongo k)) ∧
      (∀ k, HasKey st.collection k ↔ (HasKey exampleCollection k ∨ k ∈ touchedKeys st)) ∧
      (∀ d, d ∈ st.collection →
        (d ∈ st'.collection ↔
          ∃ k, hasId k d = true ∧ k ∈ matchedKeys exampleJira 1 0 ∧
            resolvedAndUpserted exampleJira exampleMongo k)) ∧
      (∀ d, d ∈ st'.collection → d ∈ st.collection) ∧
      (∀ k, HasKey st'.collection k ↔
        (k ∈ matchedKeys exampleJira 1 0 ∧ resolvedAndUpserted exampleJira exampleMongo k)) := by
  refine ⟨exampleRun, ⟨_, List.mem_cons_self _ _, rfl⟩,
    ⟨_, List.mem_cons_of_mem _ (List.mem_cons_self _ _), rfl⟩, ?_,
    syncIssues_deletes_exactly_untouched exampleJira exampleMongo exampleCollection 0 1
      examplePagination (by decide) (fun _ => rfl)⟩
  rintro ⟨d, hd, hk⟩
  simp only [exampleFinal, List.mem_cons, List.mem_singleton, List.not_mem_nil, or_false] at hd
  rcases hd with rfl | rfl
  · revert hk; decide
  · revert hk; decide

theorem processIssue_keeps_completed_witness :
    ∃ data, storeIssue exampleJira "A" 0 = .ok (some data) ∧
      M.get data "completed" = none ∧
      (processIssue exampleJira exampleMongo
        { collection := exampleCollection, updatedDocuments := [], log := [] } "A").collection.findById
          "A" =
        some (applySet [("_id", .str "A"), ("summary", .str "old"), ("completed", .bool true)] data) ∧
      M.get (applySet [("_id", .str "A"), ("summary", .str "old"), ("completed", .bool true)] data)
        "completed" = some (.bool true) ∧
      ∀ field, field ∉ syncFields →
        M.get (applySet [("_id", .str "A"), ("summary", .str "old"), ("completed", .bool true)] data)
          field =
        M.get [("_id", .str "A"), ("summary", .str "old"), ("completed", .bool true)] field :=
  processIssue_keeps_completed exampleJira exampleMongo
    { collection := exampleCollection, updatedDocuments := [], log := [] } "A"
    [("_id", .str "A"), ("summary", .str "old"), ("completed", .bool true)] rfl rfl
    example_resolved_A

theorem syncIssues_survives_failed_issue_witness :
    ∃ st st', syncPages exampleJira exampleMongo 1 0
        { collection := exampleCollection, updatedDocuments := [], log := [] } = some (none, st) ∧
      syncIssues exampleJira exampleMongo 1 exampleCollection = some (none, st') ∧
      (∃ n, st.collection.DeleteMany exampleMongo (getMapKeys st.updatedDocuments) =
          .ok (st'.collection, n) ∧ LogLine.removed n ∈ st'.log) ∧
      (∀ key, key ∈ matchedKeys exampleJira 1 0 → resolvedAndUpserted exampleJira exampleMongo key →
        key ∈ touchedKeys st' ∧ LogLine.upserted key ∈ st'.log ∧ HasKey st'.collection key) ∧
      "X" ∉ touchedKeys st' ∧
      (∃ line, line ∈ st'.log ∧ line.key? = some "X" ∧ line ≠ .upserted "X") :=
  syncIssues_survives_failed_issue exampleJira exampleMongo exampleCollection 0 1
    examplePagination (by decide) (fun _ => rfl) "X" (by rw [exampleMatched]; decide)
    ⟨_, exampleJira_storeIssue_X⟩

theorem exampleRunX :
    syncIssues exampleJira exampleMongo 1 exampleCollectionX = some (none, exampleFinalX) := by
  have hs : exampleJira.IssueSearch trackingJql (trackingOptions 0) = .ok ["A", "X", "B"] := by
    simp [exampleJira, trackingOptions]
  simp only [trackingOptions] at hs
  simp only [syncIssues, syncPages, hs, List.foldl, processIssue, exampleJira_storeIssue_A,
    exampleJira_storeIssue_B, exampleJira_storeIssue_X, Option.getD]
  rfl

theorem syncIssues_stored_keys_are_upserted_witness :
    (∀ k, HasKey exampleFinal.collection k ↔
      (k ∈ matchedKeys exampleJira 1 0 ∧ resolvedAndUpserted exampleJira exampleMongo k)) ∧
    (∀ d, d ∈ exampleFinal.collection → ∃ k, hasId k d = true ∧ k ∈ matchedKeys exampleJira 1 0) :=
  syncIssues_stored_keys_are_upserted exampleJira exampleMongo 1 exampleCollection exampleFinal
    exampleRun

/-- C6 as stated fails: the run completes without error, yet the stored keys
are not the matched keys: `X` is matched by the tracking query and was stored
before the run, and no record with key `X` is stored afterwards. -/
theorem syncIssues_drops_matched_issue :
    syncIssues exampleJira exampleMongo 1 exampleCollectionX = some (none, exampleFinalX) ∧
    ¬ (∀ k, HasKey exampleFinalX.collection k ↔ k ∈ matchedKeys exampleJira 1 0) ∧
    "X" ∈ matchedKeys exampleJira 1 0 ∧
    HasKey exampleCollectionX "X" ∧
    ¬ HasKey exampleFinalX.collection "X" := by
  have hX : "X" ∈ matchedKeys exampleJira 1 0 := by rw [exampleMatched]; decide
  have hno : ¬ HasKey exampleFinalX.collection "X" := by
    rintro ⟨d, hd, hk⟩
    simp only [exampleFinalX, List.mem_cons, List.mem_singleton, List.not_mem_nil, or_false] at hd
    rcases hd with rfl | rfl
    · revert hk; decide
    · revert hk; decide
  exact ⟨exampleRunX, fun h => hno ((h "X").mpr hX), hX,
    ⟨_, List.mem_cons_of_mem _ (List.mem_cons_self _ _), rfl⟩, hno⟩

end BackportDashboard
